import Mathlib

/-!
Verification of the credential-vault core of the Passwortmanager repository.

The Python source is shallowly embedded:
* Python `str` values are modelled as `List Char`, `bytes` as `List Nat`
  (each element a byte value `< 256`).
* the external primitives used by `src/core/encryption.py` (`base64`,
  UTF-8 codecs) are given executable Lean models matching their documented
  semantics on the inputs the program produces;
* the AES-256 block cipher and the PBKDF2 key-derivation function from the
  `cryptography` library are abstract parameters (their defining properties
  become hypotheses of the theorems);
* the SQLite tables behind `src/core/storage.py` are a record of lists, and
  each `Storage` method is a pure state-passing function; note the source
  never enables SQLite foreign-key enforcement, so the embedded operations
  do not validate `parent_id` / `category_id` references, exactly like the
  running program;
* `datetime.now()` / `os.urandom` are explicit `now` / `iv` parameters.
-/

deriving instance DecidableEq for Except

namespace PM

/-! ### Base64 (model of CPython `base64.b64encode` / `b64decode`)

`b64decode` is called with `validate=False` (the default), so characters
outside the alphabet are discarded, a padding character ends the data, and
a leftover of a single sextet (or an unpadded partial group) raises
`binascii.Error` (caught by the caller). -/

def b64Alphabet : List Char :=
  "ABCDEFGHIJKLMNOPQRSTUVWXYZabcdefghijklmnopqrstuvwxyz0123456789+/".data

def b64Char (v : Nat) : Char := b64Alphabet.getD v '?'

def b64Index (c : Char) : Option Nat := b64Alphabet.indexOf? c

/-- Base64 encoding of a byte list, as produced by `base64.b64encode`. -/
def b64encode : List Nat → List Char
  | [] => []
  | [b1] => [b64Char (b1 / 4), b64Char (b1 % 4 * 16), '=', '=']
  | [b1, b2] => [b64Char (b1 / 4), b64Char (b1 % 4 * 16 + b2 / 16), b64Char (b2 % 16 * 4), '=']
  | b1 :: b2 :: b3 :: bs =>
      b64Char (b1 / 4) :: b64Char (b1 % 4 * 16 + b2 / 16) ::
      b64Char (b2 % 16 * 4 + b3 / 64) :: b64Char (b3 % 64) :: b64encode bs

/-- Scan of the input done by non-strict `a2b_base64`: collect the sextet
values appearing before the first padding character, skipping characters
outside the alphabet; also report whether a padding character was seen. -/
def b64Scan : List Char → List Nat × Bool
  | [] => ([], false)
  | c :: cs =>
      if c = '=' then ([], true)
      else
        match b64Index c with
        | some v => let r := b64Scan cs; (v :: r.1, r.2)
        | none => b64Scan cs

inductive B64Err where
  | invalidPadding
deriving DecidableEq, Repr

/-- Turn the collected sextets back into bytes; a final partial group is
legal only when it has 2 or 3 sextets and padding was present. -/
def b64Sextets (sawPad : Bool) : List Nat → Except B64Err (List Nat)
  | s1 :: s2 :: s3 :: s4 :: rest =>
      match b64Sextets sawPad rest with
      | .ok bs => .ok ((s1 * 4 + s2 / 16) :: (s2 % 16 * 16 + s3 / 4) :: (s3 % 4 * 64 + s4) :: bs)
      | .error e => .error e
  | [] => .ok []
  | [_] => .error .invalidPadding
  | [s1, s2] => if sawPad then .ok [s1 * 4 + s2 / 16] else .error .invalidPadding
  | [s1, s2, s3] =>
      if sawPad then .ok [s1 * 4 + s2 / 16, s2 % 16 * 16 + s3 / 4] else .error .invalidPadding

/-- Base64 decoding, as performed by `base64.b64decode` with default
`validate=False`. -/
def b64decodeE (s : List Char) : Except B64Err (List Nat) :=
  let r := b64Scan s
  b64Sextets r.2 r.1

/-! #### Base64 round trip -/

theorem b64Index_b64Char : ∀ v < 64, b64Index (b64Char v) = some v := by decide

theorem b64Char_ne_pad : ∀ v < 64, b64Char v ≠ '=' := by decide

theorem b64Scan_cons_char (v : Nat) (hv : v < 64) (cs : List Char) :
    b64Scan (b64Char v :: cs) = ((v :: (b64Scan cs).1, (b64Scan cs).2)) := by
  simp [b64Scan, b64Char_ne_pad v hv, b64Index_b64Char v hv]

theorem b64_roundtrip : ∀ bs : List Nat, (∀ b ∈ bs, b < 256) →
    b64decodeE (b64encode bs) = .ok bs := by
  intro bs
  induction bs using b64encode.induct with
  | case1 =>
      intro _; simp [b64encode, b64decodeE, b64Scan, b64Sextets]
  | case2 b1 =>
      intro h
      have hb1 : b1 < 256 := h b1 (by simp)
      have h1 : b1 / 4 < 64 := by omega
      have h2 : b1 % 4 * 16 < 64 := by omega
      simp only [b64encode, b64decodeE]
      rw [b64Scan_cons_char _ h1, b64Scan_cons_char _ h2]
      simp only [b64Scan, b64Sextets, if_pos rfl, if_true]
      simp
      omega
  | case3 b1 b2 =>
      intro h
      have hb1 : b1 < 256 := h b1 (by simp)
      have hb2 : b2 < 256 := h b2 (by simp)
      have h1 : b1 / 4 < 64 := by omega
      have h2 : b1 % 4 * 16 + b2 / 16 < 64 := by omega
      have h3 : b2 % 16 * 4 < 64 := by omega
      simp only [b64encode, b64decodeE]
      rw [b64Scan_cons_char _ h1, b64Scan_cons_char _ h2, b64Scan_cons_char _ h3]
      simp only [b64Scan, b64Sextets, if_pos rfl, if_true]
      simp
      constructor
      · omega
      · omega
  | case4 b1 b2 b3 bs ih =>
      intro h
      have hb1 : b1 < 256 := h b1 (by simp)
      have hb2 : b2 < 256 := h b2 (by simp)
      have hb3 : b3 < 256 := h b3 (by simp)
      have hbs : ∀ b ∈ bs, b < 256 := fun b hb => h b (by simp [hb])
      have h1 : b1 / 4 < 64 := by omega
      have h2 : b1 % 4 * 16 + b2 / 16 < 64 := by omega
      have h3 : b2 % 16 * 4 + b3 / 64 < 64 := by omega
      have h4 : b3 % 64 < 64 := by omega
      have ih' := ih hbs
      simp only [b64decodeE] at ih'
      simp only [b64encode, b64decodeE]
      rw [b64Scan_cons_char _ h1, b64Scan_cons_char _ h2, b64Scan_cons_char _ h3,
        b64Scan_cons_char _ h4]
      simp only [b64Sextets, ih']
      have e1 : b1 / 4 * 4 + (b1 % 4 * 16 + b2 / 16) / 16 = b1 := by omega
      have e2 : (b1 % 4 * 16 + b2 / 16) % 16 * 16 + (b2 % 16 * 4 + b3 / 64) / 4 = b2 := by omega
      have e3 : (b2 % 16 * 4 + b3 / 64) % 4 * 64 + b3 % 64 = b3 := by omega
      simp [e1, e2, e3]

theorem b64encode_injOn (a b : List Nat) (ha : ∀ x ∈ a, x < 256) (hb : ∀ x ∈ b, x < 256)
    (h : b64encode a = b64encode b) : a = b := by
  have := b64_roundtrip a ha
  rw [h, b64_roundtrip b hb] at this
  exact (Except.ok.inj this).symm


/-! ### UTF-8 (model of Python `str.encode()` / `bytes.decode("utf-8")`)

Python strings that can be UTF-8 encoded hold exactly the Unicode scalar
values, which is what Lean's `Char` carries.  The strict decoder rejects
stray or missing continuation bytes, overlong encodings, surrogate code
points, and values beyond `0x10FFFF`, as CPython's does. -/

def utf8EncodeChar (c : Char) : List Nat :=
  let n := c.toNat
  if n < 128 then [n]
  else if n < 2048 then [192 + n / 64, 128 + n % 64]
  else if n < 65536 then [224 + n / 4096, 128 + n / 64 % 64, 128 + n % 64]
  else [240 + n / 262144, 128 + n / 4096 % 64, 128 + n / 64 % 64, 128 + n % 64]

def utf8Encode (s : List Char) : List Nat := s.flatMap utf8EncodeChar

inductive Utf8Err where
  | malformed
deriving DecidableEq, Repr

def utf8Cont (b : Nat) : Prop := 128 ≤ b ∧ b < 192

instance (b : Nat) : Decidable (utf8Cont b) := by unfold utf8Cont; infer_instance

/-- Decode a single UTF-8 sequence from the front of the byte list,
returning the code point and the remaining bytes. -/
def utf8Step (l : List Nat) : Except Utf8Err (Nat × List Nat) :=
  match l with
  | [] => .error .malformed
  | b :: rest =>
    if b < 128 then .ok (b, rest)
    else if b < 192 then .error .malformed
    else if b < 224 then
      match rest with
      | b2 :: r =>
        if utf8Cont b2 then
          let n := (b - 192) * 64 + (b2 - 128)
          if 128 ≤ n then .ok (n, r) else .error .malformed
        else .error .malformed
      | [] => .error .malformed
    else if b < 240 then
      match rest with
      | b2 :: b3 :: r =>
        if utf8Cont b2 ∧ utf8Cont b3 then
          let n := (b - 224) * 4096 + (b2 - 128) * 64 + (b3 - 128)
          if 2048 ≤ n ∧ ¬(55296 ≤ n ∧ n < 57344) then .ok (n, r) else .error .malformed
        else .error .malformed
      | _ => .error .malformed
    else if b < 248 then
      match rest with
      | b2 :: b3 :: b4 :: r =>
        if utf8Cont b2 ∧ utf8Cont b3 ∧ utf8Cont b4 then
          let n := (b - 240) * 262144 + (b2 - 128) * 4096 + (b3 - 128) * 64 + (b4 - 128)
          if 65536 ≤ n ∧ n < 1114112 then .ok (n, r) else .error .malformed
        else .error .malformed
      | _ => .error .malformed
    else .error .malformed

/-- Fuelled decoding loop; the fuel is only a termination device and any
value at least the length of the input gives the same result. -/
def utf8DecodeAux : Nat → List Nat → Except Utf8Err (List Char)
  | _, [] => .ok []
  | 0, _ :: _ => .error .malformed
  | fuel + 1, b :: rest =>
      match utf8Step (b :: rest) with
      | .error e => .error e
      | .ok (n, r) => (utf8DecodeAux fuel r).map (fun cs => Char.ofNat n :: cs)

/-- Strict UTF-8 decoding, as performed by `bytes.decode("utf-8")`. -/
def utf8DecodeE (l : List Nat) : Except Utf8Err (List Char) := utf8DecodeAux l.length l

theorem char_range (c : Char) : c.toNat < 55296 ∨ (57343 < c.toNat ∧ c.toNat < 1114112) := by
  have hv := c.valid
  simp [UInt32.isValidChar, Nat.isValidChar, Char.toNat] at hv
  rcases hv with h | h
  · left; exact h
  · right; exact h

theorem utf8EncodeChar_bytes (c : Char) : ∀ x ∈ utf8EncodeChar c, x < 256 := by
  intro x hx
  have hv := char_range c
  simp only [utf8EncodeChar] at hx
  split at hx <;> [skip; split at hx] <;> [skip; skip; split at hx]
  all_goals simp_all
  all_goals omega

theorem utf8EncodeChar_ne_nil (c : Char) : utf8EncodeChar c ≠ [] := by
  simp only [utf8EncodeChar]
  split <;> [simp; split] <;> [simp; split] <;> simp

set_option maxRecDepth 4000 in
theorem utf8Step_shrinks (l : List Nat) (n : Nat) (r : List Nat)
    (h : utf8Step l = .ok (n, r)) : r.length < l.length := by
  match l with
  | [] => simp [utf8Step] at h
  | b :: rest =>
    simp only [utf8Step] at h
    repeat' split at h
    all_goals cases h
    all_goals simp
    all_goals omega

theorem utf8DecodeAux_fuel (f : Nat) (l : List Nat) (hf : l.length ≤ f) :
    utf8DecodeAux f l = utf8DecodeAux l.length l := by
  induction f using Nat.strong_induction_on generalizing l with
  | _ f ih =>
    cases l with
    | nil => cases f <;> rfl
    | cons b rest =>
      cases f with
      | zero => simp at hf
      | succ f =>
        simp only [utf8DecodeAux, List.length_cons]
        cases hstep : utf8Step (b :: rest) with
        | error e => rfl
        | ok v =>
          obtain ⟨n, r⟩ := v
          have hr := utf8Step_shrinks _ _ _ hstep
          simp only [List.length_cons] at hr
          simp only [hf]
          have hfle : rest.length + 1 ≤ f + 1 := hf
          rw [ih f (by omega) r (by omega), ih rest.length (by omega) r (by omega)]

theorem utf8Step_encodeChar (c : Char) (tail : List Nat) :
    utf8Step (utf8EncodeChar c ++ tail) = .ok (c.toNat, tail) := by
  have hv := char_range c
  by_cases h1 : c.toNat < 128
  · simp only [utf8EncodeChar, if_pos h1, List.cons_append, List.nil_append]
    simp [utf8Step, h1]
  · by_cases h2 : c.toNat < 2048
    · simp only [utf8EncodeChar, if_neg h1, if_pos h2, List.cons_append, List.nil_append]
      simp only [utf8Step]
      rw [if_neg (by omega), if_neg (by omega), if_pos (by omega),
        if_pos (show utf8Cont (128 + c.toNat % 64) by unfold utf8Cont; omega)]
      rw [if_pos (show 128 ≤ (192 + c.toNat / 64 - 192) * 64 + (128 + c.toNat % 64 - 128) by
        omega)]
      have hn : (192 + c.toNat / 64 - 192) * 64 + (128 + c.toNat % 64 - 128) = c.toNat := by
        omega
      rw [hn]
    · by_cases h3 : c.toNat < 65536
      · simp only [utf8EncodeChar, if_neg h1, if_neg h2, if_pos h3, List.cons_append,
          List.nil_append]
        simp only [utf8Step]
        rw [if_neg (by omega), if_neg (by omega), if_neg (by omega), if_pos (by omega),
          if_pos (show utf8Cont (128 + c.toNat / 64 % 64) ∧ utf8Cont (128 + c.toNat % 64) by
            unfold utf8Cont; omega)]
        rw [if_pos (show 2048 ≤ (224 + c.toNat / 4096 - 224) * 4096 +
              (128 + c.toNat / 64 % 64 - 128) * 64 + (128 + c.toNat % 64 - 128) ∧
            ¬(55296 ≤ (224 + c.toNat / 4096 - 224) * 4096 +
              (128 + c.toNat / 64 % 64 - 128) * 64 + (128 + c.toNat % 64 - 128) ∧
              (224 + c.toNat / 4096 - 224) * 4096 +
              (128 + c.toNat / 64 % 64 - 128) * 64 + (128 + c.toNat % 64 - 128) < 57344) by
          constructor
          · omega
          · omega)]
        have hn : (224 + c.toNat / 4096 - 224) * 4096 +
            (128 + c.toNat / 64 % 64 - 128) * 64 + (128 + c.toNat % 64 - 128) = c.toNat := by
          omega
        rw [hn]
      · simp only [utf8EncodeChar, if_neg h1, if_neg h2, if_neg h3, List.cons_append,
          List.nil_append]
        simp only [utf8Step]
        rw [if_neg (by omega), if_neg (by omega), if_neg (by omega), if_neg (by omega),
          if_pos (by omega),
          if_pos (show utf8Cont (128 + c.toNat / 4096 % 64) ∧
              utf8Cont (128 + c.toNat / 64 % 64) ∧ utf8Cont (128 + c.toNat % 64) by
            unfold utf8Cont; omega)]
        rw [if_pos (show 65536 ≤ (240 + c.toNat / 262144 - 240) * 262144 +
              (128 + c.toNat / 4096 % 64 - 128) * 4096 +
              (128 + c.toNat / 64 % 64 - 128) * 64 + (128 + c.toNat % 64 - 128) ∧
            (240 + c.toNat / 262144 - 240) * 262144 +
              (128 + c.toNat / 4096 % 64 - 128) * 4096 +
              (128 + c.toNat / 64 % 64 - 128) * 64 + (128 + c.toNat % 64 - 128) < 1114112 by
          constructor
          · omega
          · omega)]
        have hn : (240 + c.toNat / 262144 - 240) * 262144 +
            (128 + c.toNat / 4096 % 64 - 128) * 4096 +
            (128 + c.toNat / 64 % 64 - 128) * 64 + (128 + c.toNat % 64 - 128) = c.toNat := by
          omega
        rw [hn]

theorem utf8DecodeE_nil : utf8DecodeE [] = .ok [] := rfl

theorem utf8_decode_encodeChar (c : Char) (tail : List Nat) :
    utf8DecodeE (utf8EncodeChar c ++ tail) = (utf8DecodeE tail).map (fun cs => c :: cs) := by
  obtain ⟨b, bs, hbs⟩ : ∃ b bs, utf8EncodeChar c ++ tail = b :: bs := by
    cases hc : utf8EncodeChar c with
    | nil => exact absurd hc (utf8EncodeChar_ne_nil c)
    | cons x xs => exact ⟨x, xs ++ tail, by simp [hc]⟩
  have hlen : (utf8EncodeChar c ++ tail).length = bs.length + 1 := by rw [hbs]; rfl
  rw [utf8DecodeE, hlen, hbs, utf8DecodeAux]
  rw [← hbs, utf8Step_encodeChar]
  have htail : tail.length ≤ bs.length := by
    have := congrArg List.length hbs
    simp at this
    have hne := utf8EncodeChar_ne_nil c
    have : 1 ≤ (utf8EncodeChar c).length := by
      cases hc : utf8EncodeChar c with
      | nil => exact absurd hc hne
      | cons x xs => simp
    omega
  simp only []
  rw [utf8DecodeAux_fuel bs.length tail htail]
  rw [Char.ofNat_toNat]
  rfl

theorem utf8_roundtrip : ∀ s : List Char, utf8DecodeE (utf8Encode s) = .ok s := by
  intro s
  induction s with
  | nil => exact utf8DecodeE_nil
  | cons c cs ih =>
    have hrepr : utf8Encode (c :: cs) = utf8EncodeChar c ++ utf8Encode cs := by
      simp [utf8Encode]
    rw [hrepr, utf8_decode_encodeChar, ih]
    rfl

theorem utf8Encode_bytes (s : List Char) : ∀ x ∈ utf8Encode s, x < 256 := by
  intro x hx
  simp only [utf8Encode, List.mem_flatMap] at hx
  obtain ⟨c, _, hc⟩ := hx
  exact utf8EncodeChar_bytes c x hc


/-! ### FieldCipher (`src/core/encryption.py`, `Encryption.encrypt` / `decrypt`)

The AES-256 block cipher supplied by the `cryptography` library is an
abstract pair of byte-block maps; the theorems assume exactly its
documented properties (16-byte blocks in, 16-byte blocks out, decryption
inverts encryption).  Everything else — PKCS#7 padding, CBC chaining, the
random IV prefix, base64 framing, UTF-8 transcoding and the catch-all
`except` clause — is embedded from the source. -/

/-- An AES cipher already keyed with the derived 32-byte key: `enc`/`dec`
map one 16-byte block to one 16-byte block. -/
structure AesCipher where
  enc : List Nat → List Nat
  dec : List Nat → List Nat

/-- `padder` from `Encryption.encrypt`: append `16 - len % 16` copies of
that same value (PKCS#7). -/
def pkcs7pad (b : List Nat) : List Nat :=
  b ++ List.replicate (16 - b.length % 16) (16 - b.length % 16)

def xorList (a b : List Nat) : List Nat := List.zipWith (fun x y => x ^^^ y) a b

/-- Fuelled 16-byte chunker; the fuel is only a termination device. -/
def toBlocksAux : Nat → List Nat → List (List Nat)
  | _, [] => []
  | 0, _ :: _ => []
  | f + 1, x :: xs => ((x :: xs).take 16) :: toBlocksAux f ((x :: xs).drop 16)

/-- Split a byte list into 16-byte chunks (the last one may be short when
the length is not a multiple of 16). -/
def toBlocks (l : List Nat) : List (List Nat) := toBlocksAux l.length l

theorem toBlocksAux_fuel_aux : ∀ (n : Nat) (l : List Nat), l.length ≤ n →
    ∀ f, l.length ≤ f → toBlocksAux f l = toBlocksAux l.length l := by
  intro n
  induction n with
  | zero =>
    intro l hl f hf
    have hnil : l = [] := List.eq_nil_of_length_eq_zero (by omega)
    subst hnil
    cases f <;> rfl
  | succ n ih =>
    intro l hl f hf
    cases l with
    | nil => cases f <;> rfl
    | cons x xs =>
      cases f with
      | zero => simp at hf
      | succ f =>
        have hlc : (x :: xs).length = xs.length + 1 := rfl
        have hdl : ((x :: xs).drop 16).length = xs.length + 1 - 16 := by
          rw [List.length_drop]; rfl
        simp only [toBlocksAux, List.length_cons]
        rw [ih _ (by omega) f (by omega), ih _ (by omega) xs.length (by omega)]

theorem toBlocksAux_fuel (f : Nat) (l : List Nat) (hf : l.length ≤ f) :
    toBlocksAux f l = toBlocks l :=
  toBlocksAux_fuel_aux l.length l le_rfl f hf

theorem toBlocks_cons_eq (x : Nat) (xs : List Nat) :
    toBlocks (x :: xs) = ((x :: xs).take 16) :: toBlocks ((x :: xs).drop 16) := by
  rw [toBlocks, List.length_cons, toBlocksAux]
  rw [toBlocksAux_fuel xs.length _ (by rw [List.length_drop, List.length_cons]; omega)]

/-- CBC encryption over a block list: each block is XORed with the
previous ciphertext block (initially the IV) and then block-enciphered. -/
def cbcEncB (C : AesCipher) : List Nat → List (List Nat) → List (List Nat)
  | _, [] => []
  | prev, b :: bs =>
      let cblk := C.enc (xorList prev b)
      cblk :: cbcEncB C cblk bs

/-- CBC decryption over a block list. -/
def cbcDecB (C : AesCipher) : List Nat → List (List Nat) → List (List Nat)
  | _, [] => []
  | prev, cblk :: cs => xorList prev (C.dec cblk) :: cbcDecB C cblk cs

/-- `Encryption.encrypt`: UTF-8 encode, PKCS#7 pad, AES-CBC encrypt under
the random 16-byte IV, and base64-encode `IV || ciphertext`. -/
def encrypt (C : AesCipher) (iv : List Nat) (plaintext : List Char) : List Char :=
  let padded := pkcs7pad (utf8Encode plaintext)
  let ct := (cbcEncB C iv (toBlocks padded)).flatten
  b64encode (iv ++ ct)

inductive DecErr where
  | badBase64
  | badIv
  | badBlocks
  | emptyPadded
  | badUtf8
deriving DecidableEq, Repr

/-- The body of `Encryption.decrypt` before its `except` clause: base64
decode, split off the 16-byte IV, CBC-decrypt, strip PKCS#7 padding using
the last byte (with Python's `[:-k]` slicing semantics, where `k = 0`
yields the empty list), UTF-8 decode.  Each failure that raises in Python
is an `Except.error` here: invalid base64, an IV shorter than 16 bytes
(rejected by the `Cipher` constructor), a ciphertext that is not a
multiple of the block size (rejected by `decryptor.finalize`), an empty
padded plaintext (`[-1]` raises `IndexError`), and invalid UTF-8. -/
def decryptE (C : AesCipher) (token : List Char) : Except DecErr (List Char) :=
  match b64decodeE token with
  | .error _ => .error .badBase64
  | .ok raw =>
    let iv := raw.take 16
    let ct := raw.drop 16
    if iv.length = 16 then
      if ct.length % 16 = 0 then
        let padded := (cbcDecB C iv (toBlocks ct)).flatten
        match padded.getLast? with
        | none => .error .emptyPadded
        | some padLen =>
          let stripped := if padLen = 0 then [] else padded.take (padded.length - padLen)
          match utf8DecodeE stripped with
          | .ok s => .ok s
          | .error _ => .error .badUtf8
      else .error .badBlocks
    else .error .badIv

/-- `Encryption.decrypt`: the catch-all `except` clause turns every
failure into the empty string. -/
def decrypt (C : AesCipher) (token : List Char) : List Char :=
  match decryptE C token with
  | .ok s => s
  | .error _ => []

/-! #### Round-trip lemmas -/

theorem toBlocks_flatten : ∀ l : List Nat, (toBlocks l).flatten = l := by
  suffices H : ∀ n, ∀ l : List Nat, l.length ≤ n → (toBlocks l).flatten = l by
    intro l
    exact H l.length l le_rfl
  intro n
  induction n with
  | zero =>
    intro l hl
    have hnil : l = [] := List.eq_nil_of_length_eq_zero (by omega)
    subst hnil
    rfl
  | succ n ih =>
    intro l hl
    cases l with
    | nil => rfl
    | cons x xs =>
      have hlc : (x :: xs).length = xs.length + 1 := rfl
      have hdl : ((x :: xs).drop 16).length = xs.length + 1 - 16 := by
        rw [List.length_drop]; rfl
      rw [toBlocks_cons_eq]
      simp only [List.flatten_cons]
      rw [ih _ (by omega)]
      exact List.take_append_drop 16 (x :: xs)

theorem flatten_toBlocks : ∀ bs : List (List Nat), (∀ b ∈ bs, b.length = 16) →
    toBlocks bs.flatten = bs := by
  intro bs
  induction bs with
  | nil => intro _; rfl
  | cons b rest ih =>
    intro h
    have hb : b.length = 16 := h b (by simp)
    have hrest : ∀ x ∈ rest, x.length = 16 := fun x hx => h x (by simp [hx])
    have hne : b ++ rest.flatten ≠ [] := by
      intro hc
      have := congrArg List.length hc
      simp [hb] at this
    simp only [List.flatten_cons]
    match hm : b ++ rest.flatten with
    | [] => exact absurd hm hne
    | x :: xs =>
      rw [toBlocks_cons_eq, ← hm]
      rw [List.take_left' hb, List.drop_left' hb, ih hrest]

theorem xorList_length (a b : List Nat) : (xorList a b).length = min a.length b.length := by
  simp [xorList]

theorem xorList_cancel : ∀ a b : List Nat, a.length = b.length →
    xorList a (xorList a b) = b := by
  intro a
  induction a with
  | nil =>
    intro b h
    cases b with
    | nil => rfl
    | cons y ys => simp at h
  | cons x xs ih =>
    intro b h
    cases b with
    | nil => simp at h
    | cons y ys =>
      simp only [xorList, List.zipWith_cons_cons]
      rw [show x ^^^ (x ^^^ y) = y by simp [← Nat.xor_assoc]]
      have hys := ih ys (by simpa using h)
      simp only [xorList] at hys
      rw [hys]

theorem xorList_bytes : ∀ a b : List Nat, (∀ x ∈ a, x < 256) → (∀ x ∈ b, x < 256) →
    ∀ x ∈ xorList a b, x < 256 := by
  intro a
  induction a with
  | nil => intro b _ _ x hx; simp [xorList] at hx
  | cons y ys ih =>
    intro b ha hb x hx
    cases b with
    | nil => simp [xorList] at hx
    | cons z zs =>
      simp only [xorList, List.zipWith_cons_cons, List.mem_cons] at hx
      rcases hx with hx | hx
      · subst hx
        have h1 : y < 2 ^ 8 := ha y (by simp)
        have h2 : z < 2 ^ 8 := hb z (by simp)
        calc y ^^^ z < 2 ^ 8 := Nat.xor_lt_two_pow h1 h2
          _ = 256 := by norm_num
      · exact ih zs (fun u hu => ha u (by simp [hu])) (fun u hu => hb u (by simp [hu])) x hx


theorem toBlocks_lengths : ∀ l : List Nat, l.length % 16 = 0 →
    ∀ b ∈ toBlocks l, b.length = 16 := by
  suffices H : ∀ n, ∀ l : List Nat, l.length ≤ n → l.length % 16 = 0 →
      ∀ b ∈ toBlocks l, b.length = 16 by
    intro l
    exact H l.length l le_rfl
  intro n
  induction n with
  | zero =>
    intro l hl _ b hb
    have hnil : l = [] := List.eq_nil_of_length_eq_zero (by omega)
    subst hnil
    simp [toBlocks, toBlocksAux] at hb
  | succ n ih =>
    intro l hl hmod b hb
    cases l with
    | nil => simp [toBlocks, toBlocksAux] at hb
    | cons x xs =>
      have hlc : (x :: xs).length = xs.length + 1 := rfl
      have hge : 16 ≤ (x :: xs).length := by omega
      rw [toBlocks_cons_eq] at hb
      rcases List.mem_cons.mp hb with hb | hb
      · subst hb
        rw [List.length_take]
        omega
      · have hdl : ((x :: xs).drop 16).length = xs.length + 1 - 16 := by
          rw [List.length_drop]; rfl
        exact ih _ (by omega) (by omega) b hb

theorem flatten16_mod (bs : List (List Nat)) (h : ∀ b ∈ bs, b.length = 16) :
    bs.flatten.length % 16 = 0 := by
  induction bs with
  | nil => simp
  | cons b rest ih =>
    have hb : b.length = 16 := h b (by simp)
    have hrest := ih (fun x hx => h x (by simp [hx]))
    simp only [List.flatten_cons, List.length_append, hb]
    omega

theorem cbcEncB_lengths (C : AesCipher)
    (hEncLen : ∀ b : List Nat, b.length = 16 → (C.enc b).length = 16) :
    ∀ (bs : List (List Nat)) (prev : List Nat), prev.length = 16 →
    (∀ b ∈ bs, b.length = 16) → ∀ cb ∈ cbcEncB C prev bs, cb.length = 16 := by
  intro bs
  induction bs with
  | nil => intro prev _ _ cb hcb; simp [cbcEncB] at hcb
  | cons b rest ih =>
    intro prev hprev hbs cb hcb
    have hb : b.length = 16 := hbs b (by simp)
    have hx : (xorList prev b).length = 16 := by
      simp [xorList_length, hprev, hb]
    have hcblk : (C.enc (xorList prev b)).length = 16 := hEncLen _ hx
    simp only [cbcEncB, List.mem_cons] at hcb
    rcases hcb with hcb | hcb
    · subst hcb; exact hcblk
    · exact ih _ hcblk (fun x hxm => hbs x (by simp [hxm])) cb hcb

theorem cbcEncB_bytes (C : AesCipher)
    (hEncLen : ∀ b : List Nat, b.length = 16 → (C.enc b).length = 16)
    (hEncByte : ∀ b : List Nat, b.length = 16 → (∀ x ∈ b, x < 256) →
      ∀ x ∈ C.enc b, x < 256) :
    ∀ (bs : List (List Nat)) (prev : List Nat), prev.length = 16 → (∀ x ∈ prev, x < 256) →
    (∀ b ∈ bs, b.length = 16) → (∀ b ∈ bs, ∀ x ∈ b, x < 256) →
    ∀ cb ∈ cbcEncB C prev bs, ∀ x ∈ cb, x < 256 := by
  intro bs
  induction bs with
  | nil => intro prev _ _ _ _ cb hcb; simp [cbcEncB] at hcb
  | cons b rest ih =>
    intro prev hprev hprevB hbs hbsB cb hcb
    have hb : b.length = 16 := hbs b (by simp)
    have hx : (xorList prev b).length = 16 := by simp [xorList_length, hprev, hb]
    have hxB : ∀ x ∈ xorList prev b, x < 256 :=
      xorList_bytes prev b hprevB (hbsB b (by simp))
    have hcblkL : (C.enc (xorList prev b)).length = 16 := hEncLen _ hx
    have hcblkB : ∀ x ∈ C.enc (xorList prev b), x < 256 := hEncByte _ hx hxB
    simp only [cbcEncB, List.mem_cons] at hcb
    rcases hcb with hcb | hcb
    · subst hcb; exact hcblkB
    · exact ih _ hcblkL hcblkB (fun u hu => hbs u (by simp [hu]))
        (fun u hu => hbsB u (by simp [hu])) cb hcb

theorem cbcDecB_cbcEncB (C : AesCipher)
    (hEncLen : ∀ b : List Nat, b.length = 16 → (C.enc b).length = 16)
    (hInv : ∀ b : List Nat, b.length = 16 → C.dec (C.enc b) = b) :
    ∀ (bs : List (List Nat)) (prev : List Nat), prev.length = 16 →
    (∀ b ∈ bs, b.length = 16) → cbcDecB C prev (cbcEncB C prev bs) = bs := by
  intro bs
  induction bs with
  | nil => intro prev _ _; rfl
  | cons b rest ih =>
    intro prev hprev hbs
    have hb : b.length = 16 := hbs b (by simp)
    have hx : (xorList prev b).length = 16 := by simp [xorList_length, hprev, hb]
    have hcl : (C.enc (xorList prev b)).length = 16 := hEncLen _ hx
    simp only [cbcEncB, cbcDecB]
    rw [hInv _ hx, xorList_cancel prev b (by rw [hprev, hb])]
    rw [ih _ hcl (fun u hu => hbs u (by simp [hu]))]

theorem pkcs7pad_mod (b : List Nat) : (pkcs7pad b).length % 16 = 0 := by
  simp [pkcs7pad]
  omega

theorem pkcs7pad_bytes (b : List Nat) (hb : ∀ x ∈ b, x < 256) :
    ∀ x ∈ pkcs7pad b, x < 256 := by
  intro x hx
  simp only [pkcs7pad, List.mem_append] at hx
  rcases hx with hx | hx
  · exact hb x hx
  · have := List.eq_of_mem_replicate hx
    omega

theorem pkcs7pad_getLast (b : List Nat) :
    (pkcs7pad b).getLast? = some (16 - b.length % 16) := by
  have hk : 1 ≤ 16 - b.length % 16 := by omega
  rw [pkcs7pad, List.getLast?_append_of_ne_nil]
  · rw [List.getLast?_replicate]
    simp
    omega
  · simp
    omega

theorem pkcs7pad_strip (b : List Nat) :
    (pkcs7pad b).take ((pkcs7pad b).length - (16 - b.length % 16)) = b := by
  have hlen : (pkcs7pad b).length = b.length + (16 - b.length % 16) := by
    simp [pkcs7pad]
  rw [hlen]
  have : b.length + (16 - b.length % 16) - (16 - b.length % 16) = b.length := by omega
  rw [this, pkcs7pad, List.take_left]

/-- Round trip of the field cipher: under the defining properties of the
AES block maps, `decrypt` inverts `encrypt` exactly. -/
theorem decrypt_encrypt_aux (C : AesCipher) (iv : List Nat)
    (hIvLen : iv.length = 16) (hIvB : ∀ x ∈ iv, x < 256)
    (hEncLen : ∀ b : List Nat, b.length = 16 → (C.enc b).length = 16)
    (hEncByte : ∀ b : List Nat, b.length = 16 → (∀ x ∈ b, x < 256) → ∀ x ∈ C.enc b, x < 256)
    (hInv : ∀ b : List Nat, b.length = 16 → C.dec (C.enc b) = b)
    (s : List Char) : decryptE C (encrypt C iv s) = .ok s := by
  have hdataB : ∀ x ∈ utf8Encode s, x < 256 := utf8Encode_bytes s
  have hpadB : ∀ x ∈ pkcs7pad (utf8Encode s), x < 256 := pkcs7pad_bytes _ hdataB
  have hpadMod : (pkcs7pad (utf8Encode s)).length % 16 = 0 := pkcs7pad_mod _
  have hblocksLen : ∀ bk ∈ toBlocks (pkcs7pad (utf8Encode s)), bk.length = 16 :=
    toBlocks_lengths _ hpadMod
  have hblocksB : ∀ bk ∈ toBlocks (pkcs7pad (utf8Encode s)), ∀ x ∈ bk, x < 256 := by
    intro bk hbk x hx
    have hmem : x ∈ (toBlocks (pkcs7pad (utf8Encode s))).flatten := by
      rw [List.mem_flatten]; exact ⟨bk, hbk, hx⟩
    rw [toBlocks_flatten] at hmem
    exact hpadB x hmem
  have hctLen : ∀ cb ∈ cbcEncB C iv (toBlocks (pkcs7pad (utf8Encode s))), cb.length = 16 :=
    cbcEncB_lengths C hEncLen _ iv hIvLen hblocksLen
  have hctB : ∀ cb ∈ cbcEncB C iv (toBlocks (pkcs7pad (utf8Encode s))), ∀ x ∈ cb, x < 256 :=
    cbcEncB_bytes C hEncLen hEncByte _ iv hIvLen hIvB hblocksLen hblocksB
  have hallB : ∀ x ∈ iv ++ (cbcEncB C iv (toBlocks (pkcs7pad (utf8Encode s)))).flatten,
      x < 256 := by
    intro x hx
    rcases List.mem_append.mp hx with hx | hx
    · exact hIvB x hx
    · obtain ⟨cb, hcb, hxin⟩ := List.mem_flatten.mp hx
      exact hctB cb hcb x hxin
  have hk0 : ¬ (16 - (utf8Encode s).length % 16 = 0) := by omega
  simp only [encrypt, decryptE, b64_roundtrip _ hallB, List.take_left' hIvLen,
    List.drop_left' hIvLen, hIvLen, flatten16_mod _ hctLen,
    flatten_toBlocks _ hctLen, cbcDecB_cbcEncB C hEncLen hInv _ iv hIvLen hblocksLen,
    toBlocks_flatten, pkcs7pad_getLast, hk0, pkcs7pad_strip, utf8_roundtrip,
    if_true, if_false, reduceIte]

/-- `decrypt` form of the round trip. -/
theorem decrypt_encrypt_aux' (C : AesCipher) (iv : List Nat)
    (hIvLen : iv.length = 16) (hIvB : ∀ x ∈ iv, x < 256)
    (hEncLen : ∀ b : List Nat, b.length = 16 → (C.enc b).length = 16)
    (hEncByte : ∀ b : List Nat, b.length = 16 → (∀ x ∈ b, x < 256) → ∀ x ∈ C.enc b, x < 256)
    (hInv : ∀ b : List Nat, b.length = 16 → C.dec (C.enc b) = b)
    (s : List Char) : decrypt C (encrypt C iv s) = s := by
  rw [decrypt, decrypt_encrypt_aux C iv hIvLen hIvB hEncLen hEncByte hInv s]


/-! ### KeyDerivation (`src/core/encryption.py`, `_derive_key`,
`hash_master_password`, `verify_master_password`)

PBKDF2-HMAC-SHA256 from the `cryptography` library is an abstract
function `kdf password salt iterations length`; the source instantiates
it with two distinct hard-coded salts, 100000 iterations and a 32-byte
output. -/

def encryptionSalt : List Nat := utf8Encode "passwortmanager_salt".data

def masterPasswordSalt : List Nat := utf8Encode "passwortmanager_masterpassword_salt".data

/-- `Encryption._derive_key`: PBKDF2 over the UTF-8 encoded master
password with the fixed encryption salt, 100000 iterations, 32 bytes. -/
def derive_key (kdf : List Nat → List Nat → Nat → Nat → List Nat) (pw : List Char) : List Nat :=
  kdf (utf8Encode pw) encryptionSalt 100000 32

/-- `Encryption.hash_master_password`: PBKDF2 with the distinct master
password salt, base64-encoded. -/
def hash_master_password (kdf : List Nat → List Nat → Nat → Nat → List Nat)
    (pw : List Char) : List Char :=
  b64encode (kdf (utf8Encode pw) masterPasswordSalt 100000 32)

/-- `Encryption.verify_master_password`: recompute the hash and compare
for string equality. -/
def verify_master_password (kdf : List Nat → List Nat → Nat → Nat → List Nat)
    (pw stored : List Char) : Bool :=
  hash_master_password kdf pw == stored

/-! ### Concrete instances used to witness the hypotheses -/

/-- The identity block cipher: a legitimate instantiation of the abstract
block-cipher interface for witnessing. -/
def idCipher : AesCipher := ⟨fun b => b, fun b => b⟩

def iv0 : List Nat := List.replicate 16 0

/-- A concrete stand-in for PBKDF2 used only to witness hypotheses. -/
def kdf0 (pw salt : List Nat) (iters len : Nat) : List Nat :=
  ((pw ++ salt).map (fun x => x % 256)) ++ [iters % 256, len % 256]

theorem sanity1 : decrypt idCipher (encrypt idCipher iv0 "ab".data) = "ab".data := by decide

theorem sanity2 : decrypt idCipher "!".data = [] := by decide


/-! ### CredentialStore (`src/core/storage.py`)

The SQLite file is modelled as a record of table states.  Timestamps
(`datetime.now().isoformat()`) are opaque `Nat` parameters named `now`.
`AUTOINCREMENT` ids are modelled by counters.  The source opens plain
`sqlite3` connections and never issues `PRAGMA foreign_keys = ON`, so the
declared `FOREIGN KEY ... ON DELETE SET NULL` clauses are inert: inserts
and updates are not validated against the referenced table, and no
automatic nulling happens on delete (`delete_category` nulls references
itself with explicit `UPDATE` statements). -/

structure CatRow where
  id : Nat
  name : List Char
  description : Option (List Char)
  parent_id : Option Nat
  icon : Option (List Char)
  created_at : Nat
  updated_at : Nat
deriving DecidableEq, Repr

structure PwRow where
  id : Nat
  title : List Char
  username : Option (List Char)
  password : List Char
  url : Option (List Char)
  device_type : Option (List Char)
  notes : Option (List Char)
  category_id : Option Nat
  is_favorite : Bool
  expiry_date : Option Nat
  created_at : Nat
  updated_at : Nat
deriving DecidableEq, Repr

structure SettingsRow where
  theme : List Char
  language : List Char
  visible_columns : List (List Char)
  auto_lock_enabled : Bool
  auto_lock_time : Nat
  db_path : List Char
deriving DecidableEq, Repr

structure MasterRow where
  password_hash : List Char
  created_at : Nat
deriving DecidableEq, Repr

structure DB where
  master : Option MasterRow
  categories : List CatRow
  passwords : List PwRow
  settings : Option SettingsRow
  nextCatId : Nat
  nextPwId : Nat
deriving DecidableEq, Repr

/-- `AppSettings()` defaults from `src/core/models.py`. -/
def defaultSettings : SettingsRow :=
  { theme := "light".data
    language := "de".data
    visible_columns := ["title".data, "username".data, "category".data, "updated_at".data]
    auto_lock_enabled := false
    auto_lock_time := 5
    db_path := "passwortmanager.db".data }

/-- `Storage._create_tables` on a fresh database file: creates the four
tables, one default category `Allgemein` (first AUTOINCREMENT id, 1) and
one default settings row. -/
def initDB (now : Nat) : DB :=
  { master := none
    categories := [{ id := 1, name := "Allgemein".data
                     description := some "Standardkategorie für alle Passwörter".data
                     parent_id := none, icon := none, created_at := now, updated_at := now }]
    passwords := []
    settings := some defaultSettings
    nextCatId := 2
    nextPwId := 1 }

/-- `Storage.save_master_password`: update the singleton row if present,
else insert; returns `True`. -/
def save_master_password (db : DB) (password_hash : List Char) (now : Nat) : DB × Bool :=
  match db.master with
  | some _ => ({ db with master := some ⟨password_hash, now⟩ }, true)
  | none => ({ db with master := some ⟨password_hash, now⟩ }, true)

/-- `Storage.get_master_password_hash`. -/
def get_master_password_hash (db : DB) : Option (List Char) :=
  db.master.map (fun m => m.password_hash)

/-- `Storage.add_category`: plain `INSERT`; the supplied `parent_id` is
not validated (foreign keys are not enforced).  Returns the new row id. -/
def add_category (db : DB) (name : List Char) (description : Option (List Char))
    (parent_id : Option Nat) (icon : Option (List Char)) (now : Nat) : DB × Int :=
  ({ db with
      categories := db.categories ++
        [{ id := db.nextCatId, name := name, description := description,
           parent_id := parent_id, icon := icon, created_at := now, updated_at := now }]
      nextCatId := db.nextCatId + 1 },
    Int.ofNat db.nextCatId)

/-- Row transformer of `update_category`'s `UPDATE` statement. -/
def applyCatUpdate (category_id : Nat) (name : List Char) (description : Option (List Char))
    (parent_id : Option Nat) (icon : Option (List Char)) (now : Nat) (c : CatRow) : CatRow :=
  if c.id = category_id then
    { c with name := name, description := description, parent_id := parent_id,
             icon := icon, updated_at := now }
  else c

/-- Row transformer of `delete_category`'s first `UPDATE` (null the
`category_id` of referencing passwords). -/
def clearPwCategory (category_id : Nat) (p : PwRow) : PwRow :=
  if p.category_id = some category_id then { p with category_id := none } else p

/-- Row transformer of `delete_category`'s second `UPDATE` (null the
`parent_id` of child categories). -/
def clearCatParent (category_id : Nat) (c : CatRow) : CatRow :=
  if c.parent_id = some category_id then { c with parent_id := none } else c

/-- Row transformer of `update_password`'s `UPDATE` statement. -/
def applyPwUpdate (password_id : Nat) (title : List Char) (username : Option (List Char))
    (password : List Char) (url : Option (List Char)) (device_type : Option (List Char))
    (notes : Option (List Char)) (category_id : Option Nat) (is_favorite : Bool)
    (expiry_date : Option Nat) (now : Nat) (p : PwRow) : PwRow :=
  if p.id = password_id then
    { p with title := title, username := username, password := password, url := url,
             device_type := device_type, notes := notes, category_id := category_id,
             is_favorite := is_favorite, expiry_date := expiry_date, updated_at := now }
  else p

/-- Row transformer of `toggle_favorite`'s `UPDATE` statement. -/
def applyToggle (password_id : Nat) (is_favorite : Bool) (p : PwRow) : PwRow :=
  if p.id = password_id then { p with is_favorite := is_favorite } else p

/-- `Storage.update_category`: `UPDATE ... WHERE id = ?`; success iff
`rowcount > 0`. -/
def update_category (db : DB) (category_id : Nat) (name : List Char)
    (description : Option (List Char)) (parent_id : Option Nat)
    (icon : Option (List Char)) (now : Nat) : DB × Bool :=
  ({ db with
      categories := db.categories.map (applyCatUpdate category_id name description
        parent_id icon now) },
    db.categories.any (fun c => c.id == category_id))

/-- `Storage.delete_category`: null out `category_id` on referencing
passwords and `parent_id` on child categories, then delete the row;
success iff the `DELETE` touched a row. -/
def delete_category (db : DB) (category_id : Nat) : DB × Bool :=
  ({ db with
      passwords := db.passwords.map (clearPwCategory category_id)
      categories := (db.categories.map (clearCatParent category_id)).filter
        (fun c => c.id ≠ category_id) },
    db.categories.any (fun c => c.id == category_id))

/-- `Storage.get_category`. -/
def get_category (db : DB) (category_id : Nat) : Option CatRow :=
  db.categories.find? (fun c => c.id == category_id)

/-- Lexicographic comparison of strings by code point, the order SQLite's
default BINARY collation gives on UTF-8 text. -/
def lexLe : List Char → List Char → Bool
  | [], _ => true
  | _ :: _, [] => false
  | x :: xs, y :: ys =>
    if x.toNat < y.toNat then true
    else if x.toNat = y.toNat then lexLe xs ys
    else false

def insertLe {α : Type} (le : α → α → Bool) (a : α) : List α → List α
  | [] => [a]
  | b :: bs => if le a b then a :: b :: bs else b :: insertLe le a bs

/-- Insertion sort standing in for SQLite `ORDER BY`. -/
def sortBy {α : Type} (le : α → α → Bool) : List α → List α
  | [] => []
  | a :: as => insertLe le a (sortBy le as)


/-- `Storage.get_all_categories`: `SELECT * ... ORDER BY name`. -/
def get_all_categories (db : DB) : List CatRow :=
  sortBy (fun a b => lexLe a.name b.name) db.categories

/-- `Storage.add_password`: plain `INSERT`; `category_id` unvalidated. -/
def add_password (db : DB) (title : List Char) (username : Option (List Char))
    (password : List Char) (url : Option (List Char)) (device_type : Option (List Char))
    (notes : Option (List Char)) (category_id : Option Nat) (is_favorite : Bool)
    (expiry_date : Option Nat) (now : Nat) : DB × Int :=
  ({ db with
      passwords := db.passwords ++
        [{ id := db.nextPwId, title := title, username := username, password := password,
           url := url, device_type := device_type, notes := notes,
           category_id := category_id, is_favorite := is_favorite,
           expiry_date := expiry_date, created_at := now, updated_at := now }]
      nextPwId := db.nextPwId + 1 },
    Int.ofNat db.nextPwId)

/-- `Storage.update_password`: `UPDATE ... WHERE id = ?`; success iff
`rowcount > 0`. -/
def update_password (db : DB) (password_id : Nat) (title : List Char)
    (username : Option (List Char)) (password : List Char) (url : Option (List Char))
    (device_type : Option (List Char)) (notes : Option (List Char))
    (category_id : Option Nat) (is_favorite : Bool) (expiry_date : Option Nat)
    (now : Nat) : DB × Bool :=
  ({ db with
      passwords := db.passwords.map (applyPwUpdate password_id title username password
        url device_type notes category_id is_favorite expiry_date now) },
    db.passwords.any (fun p => p.id == password_id))

/-- `Storage.delete_password`. -/
def delete_password (db : DB) (password_id : Nat) : DB × Bool :=
  ({ db with passwords := db.passwords.filter (fun p => p.id ≠ password_id) },
    db.passwords.any (fun p => p.id == password_id))

/-- `Storage.get_password`. -/
def get_password (db : DB) (password_id : Nat) : Option PwRow :=
  db.passwords.find? (fun p => p.id == password_id)

/-- `Storage.get_all_passwords`: `SELECT * ... ORDER BY title`. -/
def get_all_passwords (db : DB) : List PwRow :=
  sortBy (fun a b => lexLe a.title b.title) db.passwords

/-- `Storage.get_passwords_by_category`. -/
def get_passwords_by_category (db : DB) (category_id : Nat) : List PwRow :=
  sortBy (fun a b => lexLe a.title b.title)
    (db.passwords.filter (fun p => p.category_id == some category_id))

/-- `Storage.get_favorite_passwords`: `WHERE is_favorite = 1`. -/
def get_favorite_passwords (db : DB) : List PwRow :=
  sortBy (fun a b => lexLe a.title b.title) (db.passwords.filter (fun p => p.is_favorite))

/-- `Storage.toggle_favorite`. -/
def toggle_favorite (db : DB) (password_id : Nat) (is_favorite : Bool) : DB × Bool :=
  ({ db with
      passwords := db.passwords.map (applyToggle password_id is_favorite) },
    db.passwords.any (fun p => p.id == password_id))

/-- `Storage.save_settings`: update the singleton if a row exists, else
insert; returns `True`. -/
def save_settings (db : DB) (s : SettingsRow) : DB × Bool :=
  match db.settings with
  | some _ => ({ db with settings := some s }, true)
  | none => ({ db with settings := some s }, true)

/-- `Storage.get_settings`: return the stored row; if none exists, save
and return defaults (a mutating read, returned as a pair). -/
def get_settings (db : DB) : DB × SettingsRow :=
  match db.settings with
  | some s => (db, s)
  | none => ((save_settings db defaultSettings).1, defaultSettings)

/-! ### SQLite `LIKE` (used by `Storage.search_passwords`)

SQLite's default `LIKE` is case-insensitive for the ASCII range only:
both sides are folded by mapping `A`–`Z` to lower case; `%` matches any
character sequence and `_` exactly one character. -/

/-- ASCII-only case folding, as SQLite's built-in `like()` performs. -/
def foldChar (c : Char) : Char :=
  if c.toNat ≥ 65 ∧ c.toNat ≤ 90 then Char.ofNat (c.toNat + 32) else c

/-- Fuelled `LIKE` matcher (the fuel is only a termination device). -/
def likeMatchAux : Nat → List Char → List Char → Bool
  | 0, p, s => p.isEmpty && s.isEmpty
  | _ + 1, [], [] => true
  | _ + 1, [], _ :: _ => false
  | f + 1, c :: p, s =>
    if c = '%' then
      likeMatchAux f p s ||
        (match s with
         | [] => false
         | _ :: s' => likeMatchAux f (c :: p) s')
    else
      match s with
      | [] => false
      | d :: s' =>
        if c = '_' then likeMatchAux f p s'
        else foldChar c == foldChar d && likeMatchAux f p s'

/-- SQLite `LIKE pattern` applied to a string. -/
def likeMatch (p s : List Char) : Bool := likeMatchAux (p.length + s.length) p s

/-- The pattern `'%' + query + '%'` built by `Storage.search_passwords`. -/
def likePattern (query : List Char) : List Char := '%' :: (query ++ ['%'])

/-- `NULL LIKE p` is `NULL`, which the `WHERE` clause treats as
non-matching. -/
def optLike (pat : List Char) : Option (List Char) → Bool
  | none => false
  | some s => likeMatch pat s

/-- The `WHERE` clause of `Storage.search_passwords`: OR over title,
username, url, notes. -/
def searchMatch (query : List Char) (p : PwRow) : Bool :=
  likeMatch (likePattern query) p.title || optLike (likePattern query) p.username ||
    optLike (likePattern query) p.url || optLike (likePattern query) p.notes

/-- `Storage.search_passwords`: `WHERE ... LIKE ... ORDER BY title`. -/
def search_passwords (db : DB) (query : List Char) : List PwRow :=
  sortBy (fun a b => lexLe a.title b.title) (db.passwords.filter (searchMatch query))


/-! ### Category hierarchy (`Storage.get_category_hierarchy`)

The source builds the forest in one pass over a dictionary keyed by
category id, mutating shared child lists.  Under acyclic links the
returned structure is the finite forest rooted at the `parent_id = None`
categories, with the children of a node being exactly the categories
naming it as parent; a category whose `parent_id` names no existing id is
silently dropped.  The fuel argument is only a termination device. -/

inductive CatTree where
  | node (cat : CatRow) (children : List CatTree)

def CatTree.cat : CatTree → CatRow
  | .node c _ => c

def CatTree.children : CatTree → List CatTree
  | .node _ ts => ts

def buildTree (cats : List CatRow) : Nat → CatRow → CatTree
  | 0, c => .node c []
  | fuel + 1, c =>
      .node c ((cats.filter (fun ch => ch.parent_id == some c.id)).map
        (buildTree cats fuel))

/-- `Storage.get_category_hierarchy`. -/
def get_category_hierarchy (db : DB) : List CatTree :=
  let cats := get_all_categories db
  (cats.filter (fun c => c.parent_id == none)).map (buildTree cats cats.length)

mutual

def flattenTree : CatTree → List CatRow
  | .node c ts => c :: flattenForest ts

def flattenForest : List CatTree → List CatRow
  | [] => []
  | t :: ts => flattenTree t ++ flattenForest ts

end

/-! ### VaultSession re-keying (`src/gui/main_window.py`)

`Encryption(password)` objects are represented by a map `aes` from the
password to its (abstractly keyed) block cipher, and the fresh random IV
drawn by each `encrypt` call by a stream `ivs` indexed by loop
position. -/

/-- Loop body of `MainWindow.re_encrypt_all_passwords`: decrypt under the
old key (the catch-all inside `decrypt` means a failure never raises and yields
`""`), re-encrypt under the new key, store via `update_password`
(ignoring its success flag). -/
def reEncryptEntry (Cold Cnew : AesCipher) (iv : List Nat) (now : Nat) (db : DB)
    (e : PwRow) : DB :=
  let decrypted := decrypt Cold e.password
  let reencrypted := encrypt Cnew iv decrypted
  (update_password db e.id e.title e.username reencrypted e.url e.device_type e.notes
    e.category_id e.is_favorite e.expiry_date now).1

/-- `MainWindow.re_encrypt_all_passwords`: iterate the body over
`get_all_passwords`; the per-entry `try/except` only logs, so the loop
always continues and the function always completes. -/
def re_encrypt_all_passwords (Cold Cnew : AesCipher) (ivs : Nat → List Nat) (db : DB)
    (now : Nat) : DB :=
  ((get_all_passwords db).enum).foldl
    (fun st ie => reEncryptEntry Cold Cnew (ivs ie.1) now st ie.2) db

/-- `MainWindow.change_master_password`, accepted-dialogs path: verify the
current password against the stored hash; on success (and a non-empty new
password) re-encrypt all entries and then unconditionally save the new
hash. -/
def change_master_password (kdf : List Nat → List Nat → Nat → Nat → List Nat)
    (aes : List Char → AesCipher) (ivs : Nat → List Nat) (db : DB)
    (current_password new_password : List Char) (now : Nat) : DB :=
  match get_master_password_hash db with
  | none => db
  | some stored =>
    if verify_master_password kdf current_password stored then
      if new_password.isEmpty then db
      else
        let db1 := re_encrypt_all_passwords (aes current_password) (aes new_password) ivs
          db now
        (save_master_password db1 (hash_master_password kdf new_password) now).1
    else db


/-! ### Claim theorems -/

/-- C3: for every plaintext string and every derived key (any block-cipher
pair with AES's defining properties: 16-byte blocks to 16-byte blocks,
decryption inverting encryption) and every 16-byte IV,
`decrypt (encrypt s) = s`: encrypt PKCS#7-pads to the 16-byte block size,
CBC-encrypts under the IV and emits `base64 (IV ++ ciphertext)`, and
decrypt inverts each step. -/
theorem claim_C3_roundtrip (C : AesCipher) (iv : List Nat)
    (hIvLen : iv.length = 16) (hIvB : ∀ x ∈ iv, x < 256)
    (hEncLen : ∀ b : List Nat, b.length = 16 → (C.enc b).length = 16)
    (hEncByte : ∀ b : List Nat, b.length = 16 → (∀ x ∈ b, x < 256) → ∀ x ∈ C.enc b, x < 256)
    (hInv : ∀ b : List Nat, b.length = 16 → C.dec (C.enc b) = b)
    (s : List Char) : decrypt C (encrypt C iv s) = s :=
  decrypt_encrypt_aux' C iv hIvLen hIvB hEncLen hEncByte hInv s

/-- Witness for C3 at the identity block cipher, the zero IV and the
plaintext `"Bank"`. -/
theorem claim_C3_roundtrip_witness :
    decrypt idCipher (encrypt idCipher iv0 "Bank".data) = "Bank".data :=
  claim_C3_roundtrip idCipher iv0 (by decide) (by decide) (fun _ h => h)
    (fun _ _ hB => hB) (fun _ _ => rfl) "Bank".data

/-- C2 counterexample: the caller-visible result of `decrypt` on a
malformed token (`"!"`, whose base64 decoding leaves no bytes, so the IV
check fails) is the empty string — exactly the result of successfully
decrypting a legitimately encrypted empty plaintext, so the two cases are
not distinguishable by the caller, contradicting the claim. -/
theorem claim_C2_counterexample :
    decryptE idCipher ("!".data) = .error .badIv ∧
    decryptE idCipher (encrypt idCipher iv0 []) = .ok [] ∧
    decrypt idCipher ("!".data) = decrypt idCipher (encrypt idCipher iv0 []) := by
  refine ⟨by decide, by decide, by decide⟩

/-- C2 amended: on malformed input or a wrong key `decrypt` yields the
defined failure value `""` instead of propagating an exception, and this
failure value is distinguishable from every *non-empty* successful
plaintext; it coincides with the successful decryption of an empty
plaintext, so "no secret available" and "decryption failed" are *not*
distinguishable. -/
theorem claim_C2_amended (C : AesCipher) (t : List Char) :
    ((∃ e, decryptE C t = .error e) → decrypt C t = []) ∧
    (∀ s, decryptE C t = .ok s → decrypt C t = s) ∧
    (∀ s, decryptE C t = .ok s → s ≠ [] → decrypt C t ≠ []) := by
  refine ⟨?_, ?_, ?_⟩
  · rintro ⟨e, he⟩
    simp [decrypt, he]
  · intro s hs
    simp [decrypt, hs]
  · intro s hs hne
    simp [decrypt, hs]
    exact hne

/-- Witness for the amended C2: a failing token mapped to `""` and a
succeeding non-empty token mapped to its non-empty plaintext. -/
theorem claim_C2_amended_witness :
    decrypt idCipher ("!".data) = [] ∧
    decrypt idCipher (encrypt idCipher iv0 "x".data) = "x".data := by
  constructor
  · exact (claim_C2_amended idCipher ("!".data)).1 ⟨.badIv, by decide⟩
  · exact (claim_C2_amended idCipher (encrypt idCipher iv0 "x".data)).2.1 _ (by decide)

/-- A password row whose stored ciphertext token is undecryptable. -/
def entryBad : PwRow :=
  { id := 1, title := "Mail".data, username := none, password := "!".data, url := none,
    device_type := none, notes := none, category_id := none, is_favorite := false,
    expiry_date := none, created_at := 0, updated_at := 0 }

def dbC10 : DB :=
  { master := none, categories := [], passwords := [entryBad], settings := none,
    nextCatId := 1, nextPwId := 2 }

/-- C10: `decrypt` is total and its single failure value is the empty
string: every call either returns `""` or the successfully decoded
plaintext; a successfully decrypted empty plaintext also returns `""`
(indistinguishable from failure); and the re-keying loop body re-encrypts
`decrypt`'s output, so an undecryptable secret is silently replaced by the
encryption of the empty string. -/
theorem claim_C10_decrypt_total :
    (∀ (C : AesCipher) (t : List Char),
      decrypt C t = [] ∨ ∃ s, decryptE C t = .ok s ∧ decrypt C t = s) ∧
    (∀ (C : AesCipher) (iv : List Nat), iv.length = 16 → (∀ x ∈ iv, x < 256) →
      (∀ b : List Nat, b.length = 16 → (C.enc b).length = 16) →
      (∀ b : List Nat, b.length = 16 → (∀ x ∈ b, x < 256) → ∀ x ∈ C.enc b, x < 256) →
      (∀ b : List Nat, b.length = 16 → C.dec (C.enc b) = b) →
      decrypt C (encrypt C iv []) = []) ∧
    (∀ (Cold Cnew : AesCipher) (iv : List Nat) (now : Nat) (db : DB) (e : PwRow),
      (∃ err, decryptE Cold e.password = .error err) →
      reEncryptEntry Cold Cnew iv now db e =
        (update_password db e.id e.title e.username (encrypt Cnew iv []) e.url
          e.device_type e.notes e.category_id e.is_favorite e.expiry_date now).1) := by
  refine ⟨?_, ?_, ?_⟩
  · intro C t
    cases h : decryptE C t with
    | error e => left; simp [decrypt, h]
    | ok s => right; exact ⟨s, rfl, by simp [decrypt, h]⟩
  · intro C iv h1 h2 h3 h4 h5
    exact decrypt_encrypt_aux' C iv h1 h2 h3 h4 h5 []
  · rintro Cold Cnew iv now db e ⟨err, herr⟩
    have hdec : decrypt Cold e.password = [] := by simp [decrypt, herr]
    rw [reEncryptEntry, hdec]

/-- Witness for C10 at concrete inputs: the undecryptable token `"!"`,
the empty-plaintext encryption, and a one-entry vault whose corrupt
secret is replaced by the encryption of `""`. -/
theorem claim_C10_witness :
    (decrypt idCipher ("!".data) = [] ∨
      ∃ s, decryptE idCipher ("!".data) = .ok s ∧ decrypt idCipher ("!".data) = s) ∧
    decrypt idCipher (encrypt idCipher iv0 []) = [] ∧
    reEncryptEntry idCipher idCipher iv0 0 dbC10 entryBad =
      (update_password dbC10 entryBad.id entryBad.title entryBad.username
        (encrypt idCipher iv0 []) entryBad.url entryBad.device_type entryBad.notes
        entryBad.category_id entryBad.is_favorite entryBad.expiry_date 0).1 := by
  refine ⟨claim_C10_decrypt_total.1 idCipher ("!".data),
    claim_C10_decrypt_total.2.1 idCipher iv0 (by decide) (by decide) (fun _ h => h)
      (fun _ _ hB => hB) (fun _ _ => rfl),
    claim_C10_decrypt_total.2.2 idCipher idCipher iv0 0 dbC10 entryBad ⟨.badIv, by decide⟩⟩

/-- C6: key derivation and verification are deterministic with two
distinct hard-coded salts (one for the encryption key, one for the
verification hash), both applied with 100000 iterations and a 32-byte
output; repeated hashing is stable, a password verifies against its own
hash, and a password whose derived hash bytes differ (i.e. any non-
colliding different password) fails verification. -/
theorem claim_C6_key_derivation (kdf : List Nat → List Nat → Nat → Nat → List Nat) :
    encryptionSalt ≠ masterPasswordSalt ∧
    (∀ pw, derive_key kdf pw = kdf (utf8Encode pw) encryptionSalt 100000 32) ∧
    (∀ pw, hash_master_password kdf pw =
      b64encode (kdf (utf8Encode pw) masterPasswordSalt 100000 32)) ∧
    (∀ pw, derive_key kdf pw = derive_key kdf pw ∧
      hash_master_password kdf pw = hash_master_password kdf pw) ∧
    ((∀ p s, (kdf p s 100000 32).length = 32) → ∀ pw, (derive_key kdf pw).length = 32) ∧
    (∀ pw, verify_master_password kdf pw (hash_master_password kdf pw) = true) ∧
    (∀ p p', (∀ x ∈ kdf (utf8Encode p) masterPasswordSalt 100000 32, x < 256) →
      (∀ x ∈ kdf (utf8Encode p') masterPasswordSalt 100000 32, x < 256) →
      kdf (utf8Encode p') masterPasswordSalt 100000 32 ≠
        kdf (utf8Encode p) masterPasswordSalt 100000 32 →
      verify_master_password kdf p' (hash_master_password kdf p) = false) := by
  refine ⟨by decide, fun _ => rfl, fun _ => rfl, fun _ => ⟨rfl, rfl⟩, ?_, ?_, ?_⟩
  · intro h pw
    exact h (utf8Encode pw) encryptionSalt
  · intro pw
    simp [verify_master_password]
  · intro p p' hB hB' hne
    have hhash : hash_master_password kdf p' ≠ hash_master_password kdf p := by
      intro hc
      exact hne (b64encode_injOn _ _ hB' hB hc)
    simp [verify_master_password]
    exact hhash

/-- Witness for C6 at a concrete stand-in KDF and passwords. -/
theorem claim_C6_key_derivation_witness :
    verify_master_password kdf0 "pw1".data (hash_master_password kdf0 "pw1".data) = true ∧
    verify_master_password kdf0 "pw2".data (hash_master_password kdf0 "pw1".data) = false := by
  refine ⟨(claim_C6_key_derivation kdf0).2.2.2.2.2.1 "pw1".data,
    (claim_C6_key_derivation kdf0).2.2.2.2.2.2 "pw1".data "pw2".data ?_ ?_ ?_⟩
  · decide
  · decide
  · decide


/-! ### The mutating store operations, as one dispatcher (for C4) -/

inductive MutOp where
  | addCategory (name : List Char) (description : Option (List Char))
      (parent_id : Option Nat) (icon : Option (List Char))
  | updateCategory (category_id : Nat) (name : List Char) (description : Option (List Char))
      (parent_id : Option Nat) (icon : Option (List Char))
  | deleteCategory (category_id : Nat)
  | addPassword (title : List Char) (username : Option (List Char)) (password : List Char)
      (url : Option (List Char)) (device_type : Option (List Char))
      (notes : Option (List Char)) (category_id : Option Nat) (is_favorite : Bool)
      (expiry_date : Option Nat)
  | updatePassword (password_id : Nat) (title : List Char) (username : Option (List Char))
      (password : List Char) (url : Option (List Char)) (device_type : Option (List Char))
      (notes : Option (List Char)) (category_id : Option Nat) (is_favorite : Bool)
      (expiry_date : Option Nat)
  | deletePassword (password_id : Nat)
  | toggleFavorite (password_id : Nat) (is_favorite : Bool)
  | saveSettings (s : SettingsRow)
  | saveMasterPassword (password_hash : List Char)

/-- Run one mutating operation; the second component is `True` exactly
when the operation did not report its failure indicator (`False`, or `-1`
for the two inserts). -/
def runMut (db : DB) (op : MutOp) (now : Nat) : DB × Bool :=
  match op with
  | .addCategory n d p i =>
      let r := add_category db n d p i now
      (r.1, r.2 != -1)
  | .updateCategory cid n d p i => update_category db cid n d p i now
  | .deleteCategory cid => delete_category db cid
  | .addPassword t u pw url dt nt cid fav exp =>
      let r := add_password db t u pw url dt nt cid fav exp now
      (r.1, r.2 != -1)
  | .updatePassword pid t u pw url dt nt cid fav exp =>
      update_password db pid t u pw url dt nt cid fav exp now
  | .deletePassword pid => delete_password db pid
  | .toggleFavorite pid fav => toggle_favorite db pid fav
  | .saveSettings st => save_settings db st
  | .saveMasterPassword h => save_master_password db h now

/-! ### Referential integrity (for C4 and C5) -/

/-- An optional reference is in order when it is null or names an
existing category id. -/
def refOk (cats : List CatRow) : Option Nat → Prop
  | none => True
  | some p => ∃ c ∈ cats, c.id = p

instance : ∀ (cats : List CatRow) (o : Option Nat), Decidable (refOk cats o)
  | _, none => isTrue trivial
  | cats, some p => inferInstanceAs (Decidable (∃ c ∈ cats, c.id = p))

/-- Referential integrity of the whole store: every non-null `parent_id`
and `category_id` names an existing category. -/
def RefIntegrity (db : DB) : Prop :=
  (∀ c ∈ db.categories, refOk db.categories c.parent_id) ∧
  (∀ p ∈ db.passwords, refOk db.categories p.category_id)

instance (db : DB) : Decidable (RefIntegrity db) :=
  inferInstanceAs (Decidable (_ ∧ _))

/-- A map whose function fixes every member is the identity. -/
theorem map_self_of {α : Type} (l : List α) (f : α → α) (h : ∀ a ∈ l, f a = a) :
    l.map f = l := by
  rw [List.map_congr_left h]
  exact List.map_id' l


theorem insertLe_perm {α : Type} (le : α → α → Bool) (a : α) (l : List α) :
    List.Perm (insertLe le a l) (a :: l) := by
  induction l with
  | nil => exact List.Perm.refl _
  | cons b bs ih =>
    simp only [insertLe]
    split
    · exact List.Perm.refl _
    · exact (List.Perm.cons b ih).trans (List.Perm.swap a b bs)

theorem sortBy_perm {α : Type} (le : α → α → Bool) (l : List α) :
    List.Perm (sortBy le l) l := by
  induction l with
  | nil => exact List.Perm.refl _
  | cons a as ih =>
    exact (insertLe_perm le a (sortBy le as)).trans (List.Perm.cons a ih)

/-- C4 counterexample: with a dangling reference in the store (reachable,
since inserts are unvalidated), `delete_category` on the non-existent
referenced id returns the failure indicator `False` and yet mutates the
store — its reference-nulling `UPDATE`s run and are committed before the
`DELETE` whose zero rowcount produces the failure result. -/
def dbC4 : DB :=
  { master := none
    categories := []
    passwords := [{ id := 1, title := "t".data, username := none, password := "x".data,
                    url := none, device_type := none, notes := none, category_id := some 99,
                    is_favorite := false, expiry_date := none, created_at := 0,
                    updated_at := 0 }]
    settings := none, nextCatId := 1, nextPwId := 2 }

/-- C4 counterexample (see `dbC4`): a failing mutating operation that
changes the store. -/
theorem claim_C4_counterexample :
    (runMut dbC4 (.deleteCategory 99) 0).2 = false ∧
    (runMut dbC4 (.deleteCategory 99) 0).1 ≠ dbC4 := by
  refine ⟨by decide, by decide⟩

/-- C4 amended: in a store with no dangling references (the only state
the failing `delete_category` nulling can touch), every mutating
operation that returns its failure indicator (`False` / `-1`) leaves the
store exactly unchanged; in particular operating on a non-existent id is
a no-op failure. -/
theorem claim_C4_amended (db : DB) (op : MutOp) (now : Nat)
    (hint : RefIntegrity db) (h : (runMut db op now).2 = false) :
    (runMut db op now).1 = db := by
  cases op with
  | addCategory n d p i =>
    exfalso
    simp [runMut, add_category] at h
  | updateCategory cid n d p i =>
    simp only [runMut, update_category] at h ⊢
    rw [List.any_eq_false] at h
    rw [map_self_of _ _ (fun c hc => by
      have hne := h c hc
      simp at hne
      simp [applyCatUpdate, hne])]
  | deleteCategory cid =>
    simp only [runMut, delete_category] at h ⊢
    rw [List.any_eq_false] at h
    have hnc : ∀ c ∈ db.categories, c.id ≠ cid := fun c hc => by
      have := h c hc
      simpa using this
    have hpw : db.passwords.map (clearPwCategory cid) = db.passwords := by
      refine map_self_of _ _ (fun p hp => ?_)
      rcases hp2 : p.category_id with _ | k
      · simp [clearPwCategory, hp2]
      · by_cases hk : k = cid
        · subst hk
          have hro := hint.2 p hp
          rw [hp2] at hro
          obtain ⟨c', hc', hid⟩ := hro
          exact absurd hid (hnc c' hc')
        · simp [clearPwCategory, hp2, hk]
    have hcats : db.categories.map (clearCatParent cid) = db.categories := by
      refine map_self_of _ _ (fun c hc => ?_)
      rcases hp2 : c.parent_id with _ | k
      · simp [clearCatParent, hp2]
      · by_cases hk : k = cid
        · subst hk
          have hro := hint.1 c hc
          rw [hp2] at hro
          obtain ⟨c', hc', hid⟩ := hro
          exact absurd hid (hnc c' hc')
        · simp [clearCatParent, hp2, hk]
    rw [hpw, hcats, List.filter_eq_self.mpr (fun c hc => by simp [hnc c hc])]
  | addPassword t u pw url dt nt cid fav exp =>
    exfalso
    simp [runMut, add_password] at h
  | updatePassword pid t u pw url dt nt cid fav exp =>
    simp only [runMut, update_password] at h ⊢
    rw [List.any_eq_false] at h
    rw [map_self_of _ _ (fun p hp => by
      have hne := h p hp
      simp at hne
      simp [applyPwUpdate, hne])]
  | deletePassword pid =>
    simp only [runMut, delete_password] at h ⊢
    rw [List.any_eq_false] at h
    rw [List.filter_eq_self.mpr (fun p hp => by
      have := h p hp
      simp at this
      simp [this])]
  | toggleFavorite pid fav =>
    simp only [runMut, toggle_favorite] at h ⊢
    rw [List.any_eq_false] at h
    rw [map_self_of _ _ (fun p hp => by
      have hne := h p hp
      simp at hne
      simp [applyToggle, hne])]
  | saveSettings st =>
    exfalso
    cases hs : db.settings <;> simp [runMut, save_settings, hs] at h
  | saveMasterPassword hh =>
    exfalso
    cases hm : db.master <;> simp [runMut, save_master_password, hm] at h

/-- Witness for the amended C4: updating a non-existent category in the
freshly initialized store fails and leaves the store unchanged. -/
theorem claim_C4_amended_witness :
    (runMut (initDB 0) (.updateCategory 5 "N".data none none none) 7).1 = initDB 0 :=
  claim_C4_amended (initDB 0) (.updateCategory 5 "N".data none none none) 7
    (by decide) (by decide)

/-- C7: after a successful `delete_category C`, every former child of `C`
still exists with `parent_id = null`, every formerly referencing entry
still exists with `category_id = null` (no cascading delete of entries),
and `C` is absent from the category list returned by
`get_all_categories`. -/
theorem claim_C7_delete_category (db : DB) (cid : Nat)
    (_hsucc : (delete_category db cid).2 = true) :
    (∀ c ∈ db.categories, c.parent_id = some cid → c.id ≠ cid →
      ∃ c' ∈ (delete_category db cid).1.categories, c'.id = c.id ∧ c'.parent_id = none) ∧
    (∀ p ∈ db.passwords, ∃ p' ∈ (delete_category db cid).1.passwords, p'.id = p.id ∧
      (p.category_id = some cid → p'.category_id = none)) ∧
    (∀ c ∈ (delete_category db cid).1.categories, c.id ≠ cid ∧ c.parent_id ≠ some cid) ∧
    (∀ c ∈ get_all_categories (delete_category db cid).1, c.id ≠ cid) := by
  refine ⟨?_, ?_, ?_, ?_⟩
  · intro c hc hparent hid
    refine ⟨{ c with parent_id := none }, ?_, rfl, rfl⟩
    simp only [delete_category, List.mem_filter]
    constructor
    · exact List.mem_map.mpr ⟨c, hc, by simp [clearCatParent, hparent]⟩
    · simp [hid]
  · intro p hp
    by_cases hcat : p.category_id = some cid
    · refine ⟨{ p with category_id := none }, ?_, rfl, fun _ => rfl⟩
      simp only [delete_category]
      exact List.mem_map.mpr ⟨p, hp, by simp [clearPwCategory, hcat]⟩
    · refine ⟨p, ?_, rfl, fun hc => absurd hc hcat⟩
      simp only [delete_category]
      exact List.mem_map.mpr ⟨p, hp, by simp [clearPwCategory, hcat]⟩
  · intro c hc
    simp only [delete_category, List.mem_filter] at hc
    obtain ⟨hmem, hne⟩ := hc
    obtain ⟨c0, _, hc0⟩ := List.mem_map.mp hmem
    constructor
    · simpa using hne
    · by_cases hp : c0.parent_id = some cid
      · rw [show clearCatParent cid c0 = { c0 with parent_id := none } by
          simp [clearCatParent, hp]] at hc0
        rw [← hc0]
        simp
      · rw [show clearCatParent cid c0 = c0 by simp [clearCatParent, hp]] at hc0
        rw [← hc0]
        exact hp
  · intro c hc
    have hmem : c ∈ (delete_category db cid).1.categories :=
      ((sortBy_perm _ _).mem_iff).mp hc
    simp only [delete_category, List.mem_filter] at hmem
    simpa using hmem.2

/-- Witness for C7: deleting category 1 from a store where category 2 is
its child and one password references it. -/
def dbC7 : DB :=
  { master := none
    categories := [{ id := 1, name := "A".data, description := none, parent_id := none,
                     icon := none, created_at := 0, updated_at := 0 },
                   { id := 2, name := "B".data, description := none, parent_id := some 1,
                     icon := none, created_at := 0, updated_at := 0 }]
    passwords := [{ id := 1, title := "t".data, username := none, password := "x".data,
                    url := none, device_type := none, notes := none, category_id := some 1,
                    is_favorite := false, expiry_date := none, created_at := 0,
                    updated_at := 0 }]
    settings := none, nextCatId := 3, nextPwId := 2 }

theorem claim_C7_delete_category_witness :
    ∃ c' ∈ (delete_category dbC7 1).1.categories, c'.id = 2 ∧ c'.parent_id = none := by
  have h := (claim_C7_delete_category dbC7 1 (by decide)).1
  exact h { id := 2, name := "B".data, description := none, parent_id := some 1,
            icon := none, created_at := 0, updated_at := 0 }
    (by decide) rfl (by decide)


/-- C5 counterexample: `add_category` with a `parent_id` naming no
existing category succeeds (returns a fresh id, not `-1`) and leaves the
store with a dangling reference — foreign keys are declared in the schema
but never enforced, because the source never issues
`PRAGMA foreign_keys = ON` on its connections. -/
theorem claim_C5_counterexample :
    (add_category (initDB 0) "X".data none (some 99) none 1).2 ≠ -1 ∧
    ¬ RefIntegrity (add_category (initDB 0) "X".data none (some 99) none 1).1 := by
  refine ⟨by decide, by decide⟩

/-- Guard under which an operation's supplied reference is valid. -/
def refGuard (db : DB) : MutOp → Prop
  | .addCategory _ _ p _ => refOk db.categories p
  | .updateCategory _ _ _ p _ => refOk db.categories p
  | .addPassword _ _ _ _ _ _ cid _ _ => refOk db.categories cid
  | .updatePassword _ _ _ _ _ _ _ cid _ _ => refOk db.categories cid
  | _ => True

instance (db : DB) (op : MutOp) : Decidable (refGuard db op) := by
  cases op <;> simp only [refGuard] <;> infer_instance

theorem refOk_of_subsetIds (cats cats' : List CatRow)
    (h : ∀ k, (∃ c ∈ cats, c.id = k) → ∃ c' ∈ cats', c'.id = k) :
    ∀ o : Option Nat, refOk cats o → refOk cats' o := by
  intro o
  cases o with
  | none => intro _; trivial
  | some p => exact h p

/-- C5 amended: the store does not enforce the referential-integrity
invariant — `add_category` / `update_category` / `add_password` /
`update_password` accept arbitrary `parent_id` / `category_id` values
without failing (see the counterexample) — but every operation whose
supplied reference is null or names an existing category preserves the
invariant, and `delete_category` re-establishes it for the removed id by
nulling children and referencing entries. -/
theorem claim_C5_amended (db : DB) (op : MutOp) (now : Nat)
    (hint : RefIntegrity db) (hg : refGuard db op) :
    RefIntegrity (runMut db op now).1 := by
  obtain ⟨hcat, hpw⟩ := hint
  cases op with
  | addCategory n d p i =>
    simp only [refGuard] at hg
    simp only [runMut, add_category]
    have hmono : ∀ (rest : List CatRow) (o : Option Nat), refOk db.categories o →
        refOk (db.categories ++ rest) o := fun rest =>
      refOk_of_subsetIds _ _ (fun k hk => by
        obtain ⟨c, hc, hk⟩ := hk
        exact ⟨c, by simp [hc], hk⟩)
    refine ⟨?_, fun q hq => hmono _ _ (hpw q hq)⟩
    intro c hc
    rcases List.mem_append.mp hc with hc | hc
    · exact hmono _ _ (hcat c hc)
    · have hceq := List.mem_singleton.mp hc
      rw [hceq]
      exact hmono _ _ hg
  | updateCategory cid n d p i =>
    simp only [refGuard] at hg
    simp only [runMut, update_category]
    have hfid : ∀ c : CatRow, (applyCatUpdate cid n d p i now c).id = c.id := by
      intro c
      by_cases hc : c.id = cid <;> simp [applyCatUpdate, hc]
    have hmono : ∀ o, refOk db.categories o →
        refOk (db.categories.map (applyCatUpdate cid n d p i now)) o := by
      refine refOk_of_subsetIds _ _ (fun k hk => ?_)
      obtain ⟨c, hc, hk⟩ := hk
      exact ⟨applyCatUpdate cid n d p i now c, List.mem_map.mpr ⟨c, hc, rfl⟩,
        by rw [hfid, hk]⟩
    refine ⟨?_, fun q hq => hmono _ (hpw q hq)⟩
    intro c hc
    obtain ⟨c0, hc0, hfc0⟩ := List.mem_map.mp hc
    by_cases hid : c0.id = cid
    · have hpar : c.parent_id = p := by rw [← hfc0]; simp [applyCatUpdate, hid]
      rw [hpar]
      exact hmono _ hg
    · have hpar : c.parent_id = c0.parent_id := by rw [← hfc0]; simp [applyCatUpdate, hid]
      rw [hpar]
      exact hmono _ (hcat c0 hc0)
  | deleteCategory cid =>
    simp only [runMut, delete_category]
    have hgid : ∀ c : CatRow, (clearCatParent cid c).id = c.id := by
      intro c
      by_cases hc : c.parent_id = some cid <;> simp [clearCatParent, hc]
    have hsurv : ∀ k, k ≠ cid → (∃ c ∈ db.categories, c.id = k) →
        ∃ c' ∈ (db.categories.map (clearCatParent cid)).filter (fun c => c.id ≠ cid),
          c'.id = k := by
      rintro k hkne ⟨c, hc, hk⟩
      refine ⟨clearCatParent cid c,
        List.mem_filter.mpr ⟨List.mem_map.mpr ⟨c, hc, rfl⟩, ?_⟩, by rw [hgid, hk]⟩
      simp [hgid, hk, hkne]
    constructor
    · intro c hc
      obtain ⟨hmem, _⟩ := List.mem_filter.mp hc
      obtain ⟨c0, hc0, hgc0⟩ := List.mem_map.mp hmem
      by_cases hp : c0.parent_id = some cid
      · have hpar : c.parent_id = none := by rw [← hgc0]; simp [clearCatParent, hp]
        rw [hpar]
        trivial
      · have hpar : c.parent_id = c0.parent_id := by rw [← hgc0]; simp [clearCatParent, hp]
        rw [hpar]
        rcases ho : c0.parent_id with _ | k
        · trivial
        · have hk : k ≠ cid := by
            intro hkc
            subst hkc
            exact hp ho
          have hro := hcat c0 hc0
          rw [ho] at hro
          exact hsurv k hk hro
    · intro q hq
      obtain ⟨q0, hq0, hhq0⟩ := List.mem_map.mp hq
      by_cases hp : q0.category_id = some cid
      · have hpar : q.category_id = none := by rw [← hhq0]; simp [clearPwCategory, hp]
        rw [hpar]
        trivial
      · have hpar : q.category_id = q0.category_id := by
          rw [← hhq0]; simp [clearPwCategory, hp]
        rw [hpar]
        rcases ho : q0.category_id with _ | k
        · trivial
        · have hk : k ≠ cid := by
            intro hkc
            subst hkc
            exact hp ho
          have hro := hpw q0 hq0
          rw [ho] at hro
          exact hsurv k hk hro
  | addPassword t u pw2 url dt nt cid fav exp =>
    simp only [refGuard] at hg
    simp only [runMut, add_password]
    refine ⟨hcat, ?_⟩
    intro q hq
    rcases List.mem_append.mp hq with hq | hq
    · exact hpw q hq
    · have hqeq := List.mem_singleton.mp hq
      rw [hqeq]
      exact hg
  | updatePassword pid t u pw2 url dt nt cid fav exp =>
    simp only [refGuard] at hg
    simp only [runMut, update_password]
    refine ⟨hcat, ?_⟩
    intro q hq
    obtain ⟨q0, hq0, hfq0⟩ := List.mem_map.mp hq
    by_cases hid : q0.id = pid
    · have hcid : q.category_id = cid := by rw [← hfq0]; simp [applyPwUpdate, hid]
      rw [hcid]
      exact hg
    · have hcid : q.category_id = q0.category_id := by
        rw [← hfq0]; simp [applyPwUpdate, hid]
      rw [hcid]
      exact hpw q0 hq0
  | deletePassword pid =>
    simp only [runMut, delete_password]
    refine ⟨hcat, ?_⟩
    intro q hq
    exact hpw q (List.mem_filter.mp hq).1
  | toggleFavorite pid fav =>
    simp only [runMut, toggle_favorite]
    refine ⟨hcat, ?_⟩
    intro q hq
    obtain ⟨q0, hq0, hfq0⟩ := List.mem_map.mp hq
    have hcid : q.category_id = q0.category_id := by
      rw [← hfq0]
      by_cases hid : q0.id = pid <;> simp [applyToggle, hid]
    rw [hcid]
    exact hpw q0 hq0
  | saveSettings st =>
    cases hs : db.settings <;>
      simpa [runMut, save_settings, hs, RefIntegrity] using ⟨hcat, hpw⟩
  | saveMasterPassword hh =>
    cases hm : db.master <;>
      simpa [runMut, save_master_password, hm, RefIntegrity] using ⟨hcat, hpw⟩

/-- Witness for the amended C5: adding a subcategory of the default
category preserves referential integrity. -/
theorem claim_C5_amended_witness :
    RefIntegrity (runMut (initDB 0) (.addCategory "Sub".data none (some 1) none) 3).1 :=
  claim_C5_amended (initDB 0) (.addCategory "Sub".data none (some 1) none) 3
    (by decide) (by decide)


/-! ### C9: `search_passwords` versus the spec's substring semantics -/

/-- Spec-side notion: one string starts with another, after folding. -/
def startsWith : List Char → List Char → Bool
  | [], _ => true
  | _ :: _, [] => false
  | a :: as, b :: bs => a == b && startsWith as bs

/-- Spec-side notion: occurrence as a contiguous substring. -/
def containsSub (needle : List Char) : List Char → Bool
  | [] => startsWith needle []
  | d :: t => startsWith needle (d :: t) || containsSub needle t

def foldList (s : List Char) : List Char := s.map foldChar

/-- The query contains no `LIKE` wildcard characters. -/
def noWild (q : List Char) : Bool := q.all (fun c => !(c == '%' || c == '_'))

theorem likeMatchAux_nil (f : Nat) (s : List Char) :
    likeMatchAux f [] s = s.isEmpty := by
  cases f <;> cases s <;> rfl

theorem likeMatchAux_percent (f : Nat) (s : List Char) (hf : s.length < f) :
    likeMatchAux f ['%'] s = true := by
  induction f generalizing s with
  | zero => omega
  | succ f ih =>
    simp only [likeMatchAux, if_pos rfl]
    cases s with
    | nil => simp [likeMatchAux_nil]
    | cons d s' =>
      have : likeMatchAux f ['%'] s' = true := ih s' (by simp at hf ⊢; omega)
      simp [this]

theorem likeMatchAux_starts (f : Nat) (q s : List Char) (hw : noWild q = true)
    (hf : q.length + s.length + 1 ≤ f) :
    likeMatchAux f (q ++ ['%']) s = startsWith (foldList q) (foldList s) := by
  induction f generalizing q s with
  | zero => omega
  | succ f ih =>
    cases q with
    | nil =>
      simp only [List.nil_append]
      rw [likeMatchAux_percent (f + 1) s (by simp at hf; omega)]
      simp [foldList, startsWith]
    | cons c q' =>
      have hcw : ¬(c == '%' || c == '_') = true := by
        have := List.all_eq_true.mp hw c (by simp)
        simpa using this
      have hcp : ¬ c = '%' := by
        intro hc
        subst hc
        simp at hcw
      have hcu : ¬ c = '_' := by
        intro hc
        subst hc
        simp at hcw
      have hw' : noWild q' = true := by
        rw [noWild, List.all_eq_true]
        intro x hx
        exact List.all_eq_true.mp hw x (by simp [hx])
      simp only [List.cons_append, likeMatchAux, if_neg hcp]
      cases s with
      | nil => simp [foldList, startsWith]
      | cons d s' =>
        have hrec := ih q' s' hw' (by simp at hf ⊢; omega)
        simp only [if_neg hcu, List.append_eq, hrec]
        simp only [foldList, List.map_cons, startsWith]

theorem likeMatchAux_contains (f : Nat) (q s : List Char) (hw : noWild q = true)
    (hf : q.length + s.length + 2 ≤ f) :
    likeMatchAux f ('%' :: (q ++ ['%'])) s = containsSub (foldList q) (foldList s) := by
  induction f generalizing s with
  | zero => omega
  | succ f ih =>
    simp only [likeMatchAux, reduceIte]
    rw [likeMatchAux_starts f q s hw (by omega)]
    cases s with
    | nil => simp [foldList, containsSub]
    | cons d s' =>
      simp only [ih s' (by simp at hf ⊢; omega)]
      simp only [foldList, List.map_cons, containsSub]

/-- Bridge: the `LIKE '%q%'` filter used by the source equals the
ASCII-case-insensitive substring test when the query holds no wildcard
characters. -/
theorem likeMatch_contains (q s : List Char) (hw : noWild q = true) :
    likeMatch (likePattern q) s = containsSub (foldList q) (foldList s) := by
  rw [likeMatch, likePattern]
  refine likeMatchAux_contains _ q s hw ?_
  simp
  omega

/-- Spec-side field match (null fields are non-matching). -/
def specFieldMatch (q : List Char) : Option (List Char) → Bool
  | none => false
  | some s => containsSub (foldList q) (foldList s)

/-- Search operation as worded by the spec: exactly the entries with a
case-insensitive substring occurrence of the query in title, username,
url or notes (OR-combined), nulls non-matching. -/
def specSearchEntries (db : DB) (q : List Char) : List PwRow :=
  db.passwords.filter (fun p =>
    containsSub (foldList q) (foldList p.title) || specFieldMatch q p.username ||
      specFieldMatch q p.url || specFieldMatch q p.notes)

def dbC9 : DB :=
  { master := none
    categories := []
    passwords := [{ id := 1, title := "Bank Account".data, username := none,
                    password := "x".data, url := none, device_type := none, notes := none,
                    category_id := none, is_favorite := false, expiry_date := none,
                    created_at := 0, updated_at := 0 }]
    settings := none, nextCatId := 1, nextPwId := 2 }

/-- C9 counterexample: for the query `"_"` the claim says no entry
matches (`"_"` is not a substring of `"Bank Account"`), but the code
interpolates the query into the `LIKE` pattern, where `_` is a
single-character wildcard, so the entry is returned. -/
theorem claim_C9_counterexample :
    search_passwords dbC9 "_".data ≠ specSearchEntries dbC9 "_".data := by
  decide

/-- C9 amended: for every query containing no `LIKE` wildcard characters
(`%`, `_`), `search_passwords` returns exactly the entries for which the
query occurs as an ASCII-case-insensitive substring of at least one of
title, username, url or notes (OR-combined; null fields are treated as
non-matching, not as errors); queries containing wildcard characters are
instead interpreted as `LIKE` patterns. -/
theorem claim_C9_amended (db : DB) (q : List Char) (hw : noWild q = true) :
    List.Perm (search_passwords db q) (specSearchEntries db q) ∧
    (optLike (likePattern q) none = false) := by
  constructor
  · rw [search_passwords, specSearchEntries]
    refine ((sortBy_perm _ _).trans ?_)
    rw [List.filter_congr]
    intro p _
    rw [searchMatch]
    rw [likeMatch_contains _ _ hw]
    have hu : optLike (likePattern q) p.username = specFieldMatch q p.username := by
      cases p.username with
      | none => rfl
      | some u => simp [optLike, specFieldMatch, likeMatch_contains _ _ hw]
    have hr : optLike (likePattern q) p.url = specFieldMatch q p.url := by
      cases p.url with
      | none => rfl
      | some u => simp [optLike, specFieldMatch, likeMatch_contains _ _ hw]
    have hn : optLike (likePattern q) p.notes = specFieldMatch q p.notes := by
      cases p.notes with
      | none => rfl
      | some u => simp [optLike, specFieldMatch, likeMatch_contains _ _ hw]
    rw [hu, hr, hn]
  · rfl

/-- Witness for the amended C9: the spec's own scenario, query `"ban"`
against a store holding `"Bank Account"` and `"Email"`. -/
def dbC9b : DB :=
  { dbC9 with
    passwords := dbC9.passwords ++
      [{ id := 2, title := "Email".data, username := none, password := "y".data,
         url := none, device_type := none, notes := none, category_id := none,
         is_favorite := false, expiry_date := none, created_at := 0, updated_at := 0 }] }

theorem claim_C9_amended_witness :
    List.Perm (search_passwords dbC9b "ban".data) (specSearchEntries dbC9b "ban".data) :=
  (claim_C9_amended dbC9b "ban".data (by decide)).1


/-! ### C1: the re-keying protocol persists the new hash unconditionally -/

def aes0 : List Char → AesCipher := fun _ => idCipher

def ivs0 : Nat → List Nat := fun _ => iv0

/-- A vault whose master hash verifies `"old"` and whose single entry
holds an undecryptable ciphertext token. -/
def dbC1 : DB :=
  { master := some ⟨hash_master_password kdf0 "old".data, 0⟩
    categories := []
    passwords := [entryBad]
    settings := none, nextCatId := 1, nextPwId := 2 }

/-- C1 is violated by the code: with an entry whose secret cannot be
decrypted (a failure partway through the batch), `change_master_password`
still persists the *new* master hash — the per-entry `try/except` in
`re_encrypt_all_passwords` only logs and continues, no success indicator
is checked, and `save_master_password(new_hash)` runs unconditionally
after the loop; the failed entry is even overwritten with the encryption
of the empty string.  The claim requires the batch to halt and the stored
hash to remain the old one. -/
theorem claim_C1_rekey_bug :
    (∃ e, decryptE (aes0 "old".data) entryBad.password = .error e) ∧
    get_master_password_hash
        (change_master_password kdf0 aes0 ivs0 dbC1 "old".data "new".data 5) =
      some (hash_master_password kdf0 "new".data) ∧
    hash_master_password kdf0 "new".data ≠ hash_master_password kdf0 "old".data ∧
    (∃ p ∈ (change_master_password kdf0 aes0 ivs0 dbC1 "old".data "new".data 5).passwords,
      p.id = entryBad.id ∧ p.password = encrypt idCipher iv0 []) := by
  refine ⟨⟨.badIv, by decide⟩, by decide, by decide, by decide⟩


/-! ### C8 infrastructure: reachability along parent links

`reaches cats f x c` holds when following the (deterministic) parent
chain upward from `x` meets `c` within `f` steps; under an acyclicity
ranking enough fuel makes it the transitive-reflexive parent relation. -/

def findCat (cats : List CatRow) (i : Nat) : Option CatRow :=
  cats.find? (fun c => c.id == i)

def reaches (cats : List CatRow) : Nat → CatRow → CatRow → Bool
  | 0, x, c => decide (x = c)
  | f + 1, x, c =>
      decide (x = c) ||
        match x.parent_id with
        | none => false
        | some p =>
          match findCat cats p with
          | none => false
          | some px => reaches cats f px c

theorem findCat_mem (cats : List CatRow) (p : Nat) (px : CatRow)
    (h : findCat cats p = some px) : px ∈ cats ∧ px.id = p := by
  refine ⟨List.mem_of_find?_eq_some h, ?_⟩
  have := List.find?_some h
  simpa using this

theorem findCat_self (cats : List CatRow) (hnd : (cats.map (fun c => c.id)).Nodup)
    (c : CatRow) (hc : c ∈ cats) : findCat cats c.id = some c := by
  induction cats with
  | nil => simp at hc
  | cons a rest ih =>
    simp only [List.map_cons, List.nodup_cons] at hnd
    rcases List.mem_cons.mp hc with hc | hc
    · subst hc
      simp [findCat]
    · have hane : a.id ≠ c.id := by
        intro he
        exact hnd.1 (he ▸ List.mem_map.mpr ⟨c, hc, rfl⟩)
      have := ih hnd.2 hc
      simp only [findCat] at this ⊢
      simp [List.find?_cons, hane, this]

theorem reaches_self (cats : List CatRow) (f : Nat) (x : CatRow) :
    reaches cats f x x = true := by
  cases f <;> simp [reaches]

theorem reaches_mono (cats : List CatRow) : ∀ (f g : Nat) (x c : CatRow), f ≤ g →
    reaches cats f x c = true → reaches cats g x c = true := by
  intro f
  induction f with
  | zero =>
    intro g x c _ h
    simp only [reaches] at h
    have : x = c := of_decide_eq_true h
    subst this
    exact reaches_self cats g x
  | succ f ih =>
    intro g x c hle h
    cases g with
    | zero => omega
    | succ g =>
      simp only [reaches] at h ⊢
      rcases (Bool.or_eq_true _ _).mp h with h | h
      · simp [h]
      · refine (Bool.or_eq_true _ _).mpr (Or.inr ?_)
        rcases hp : x.parent_id with _ | p
        · simp only [hp] at h; simp at h
        · simp only [hp] at h
          rcases hf : findCat cats p with _ | px
          · simp only [hf] at h; simp at h
          · simp only [hf] at h
            simp only [hp, hf]
            exact ih g px c (by omega) h

theorem reaches_step (cats : List CatRow) (f : Nat) (x px c : CatRow) (p : Nat)
    (hp : x.parent_id = some p) (hf : findCat cats p = some px)
    (h : reaches cats f px c = true) : reaches cats (f + 1) x c = true := by
  simp only [reaches, hp, hf]
  simp [h]

theorem reaches_trans (cats : List CatRow) : ∀ (f g : Nat) (x y c : CatRow),
    reaches cats f x y = true → reaches cats g y c = true →
    reaches cats (f + g) x c = true := by
  intro f
  induction f with
  | zero =>
    intro g x y c hxy hyc
    simp only [reaches] at hxy
    have : x = y := of_decide_eq_true hxy
    subst this
    exact reaches_mono cats g (0 + g) x c (by omega) hyc
  | succ f ih =>
    intro g x y c hxy hyc
    simp only [reaches] at hxy
    rcases (Bool.or_eq_true _ _).mp hxy with h | h
    · have : x = y := of_decide_eq_true h
      subst this
      exact reaches_mono cats g (f + 1 + g) x c (by omega) hyc
    · rcases hp : x.parent_id with _ | p
      · simp only [hp] at h; simp at h
      · simp only [hp] at h
        rcases hfc : findCat cats p with _ | px
        · simp only [hfc] at h; simp at h
        · simp only [hfc] at h
          have := ih g px y c h hyc
          have hstep := reaches_step cats (f + g) x px c p hp hfc this
          exact reaches_mono cats (f + g + 1) (f + 1 + g) x c (by omega) hstep


theorem reaches_rank (cats : List CatRow) (rank : Nat → Nat)
    (hrk : ∀ c ∈ cats, ∀ p, c.parent_id = some p → rank p < rank c.id) (c : CatRow) :
    ∀ (f : Nat) (x : CatRow), x ∈ cats → reaches cats f x c = true →
    rank c.id ≤ rank x.id := by
  intro f
  induction f with
  | zero =>
    intro x _ h
    simp only [reaches] at h
    have : x = c := of_decide_eq_true h
    subst this
    exact le_rfl
  | succ f ih =>
    intro x hx h
    simp only [reaches] at h
    rcases (Bool.or_eq_true _ _).mp h with h | h
    · have : x = c := of_decide_eq_true h
      subst this
      exact le_rfl
    · rcases hp : x.parent_id with _ | p
      · simp only [hp] at h; simp at h
      · simp only [hp] at h
        rcases hfc : findCat cats p with _ | px
        · simp only [hfc] at h; simp at h
        · simp only [hfc] at h
          obtain ⟨hpxmem, hpxid⟩ := findCat_mem cats p px hfc
          have h1 : rank c.id ≤ rank px.id := ih px hpxmem h
          have h2 : rank p < rank x.id := hrk x hx p hp
          rw [hpxid] at h1
          omega

theorem reaches_compress (cats : List CatRow) (rank : Nat → Nat)
    (hrk : ∀ c ∈ cats, ∀ p, c.parent_id = some p → rank p < rank c.id) (c : CatRow) :
    ∀ (f : Nat) (x : CatRow), x ∈ cats → reaches cats f x c = true →
    reaches cats (rank x.id + 1) x c = true := by
  intro f
  induction f with
  | zero =>
    intro x _ h
    have : x = c := of_decide_eq_true h
    subst this
    exact reaches_self cats _ x
  | succ f ih =>
    intro x hx h
    simp only [reaches] at h
    rcases (Bool.or_eq_true _ _).mp h with h | h
    · have : x = c := of_decide_eq_true h
      subst this
      exact reaches_self cats _ x
    · rcases hp : x.parent_id with _ | p
      · simp only [hp] at h; simp at h
      · simp only [hp] at h
        rcases hfc : findCat cats p with _ | px
        · simp only [hfc] at h; simp at h
        · simp only [hfc] at h
          obtain ⟨hpxmem, hpxid⟩ := findCat_mem cats p px hfc
          have hr := ih px hpxmem h
          have hlt : rank p < rank x.id := hrk x hx p hp
          have hmono : reaches cats (rank x.id) px c = true := by
            refine reaches_mono cats _ _ px c ?_ hr
            rw [hpxid]
            omega
          exact reaches_step cats _ x px c p hp hfc hmono

theorem reaches_bound (cats : List CatRow) (rank : Nat → Nat)
    (hrk : ∀ c ∈ cats, ∀ p, c.parent_id = some p → rank p < rank c.id)
    (hrb : ∀ c ∈ cats, rank c.id < cats.length) (c : CatRow)
    (f : Nat) (x : CatRow) (hx : x ∈ cats) (h : reaches cats f x c = true) :
    reaches cats cats.length x c = true := by
  refine reaches_mono cats _ _ x c ?_ (reaches_compress cats rank hrk c f x hx h)
  have := hrb x hx
  omega

theorem reaches_child_exists (cats : List CatRow) (rank : Nat → Nat)
    (hrk : ∀ c ∈ cats, ∀ p, c.parent_id = some p → rank p < rank c.id)
    (hrb : ∀ c ∈ cats, rank c.id < cats.length) (c : CatRow) :
    ∀ (f : Nat) (x : CatRow), x ∈ cats → reaches cats f x c = true → x ≠ c →
    ∃ d ∈ cats, d.parent_id = some c.id ∧ reaches cats cats.length x d = true := by
  intro f
  induction f with
  | zero =>
    intro x _ h hne
    exact absurd (of_decide_eq_true h) hne
  | succ f ih =>
    intro x hx h hne
    simp only [reaches] at h
    rcases (Bool.or_eq_true _ _).mp h with h | h
    · exact absurd (of_decide_eq_true h) hne
    · rcases hp : x.parent_id with _ | p
      · simp only [hp] at h; simp at h
      · simp only [hp] at h
        rcases hfc : findCat cats p with _ | px
        · simp only [hfc] at h; simp at h
        · simp only [hfc] at h
          obtain ⟨hpxmem, hpxid⟩ := findCat_mem cats p px hfc
          by_cases hpc : px = c
          · subst hpc
            refine ⟨x, hx, ?_, reaches_self cats _ x⟩
            rw [hp, hpxid]
          · obtain ⟨d, hd, hdp, hrd⟩ := ih px hpxmem h hpc
            refine ⟨d, hd, hdp, ?_⟩
            have := reaches_step cats _ x px d p hp hfc hrd
            exact reaches_bound cats rank hrk hrb d _ x hx this

theorem reaches_child_unique (cats : List CatRow) (rank : Nat → Nat)
    (hrk : ∀ c ∈ cats, ∀ p, c.parent_id = some p → rank p < rank c.id) (c : CatRow) :
    ∀ (f g : Nat) (x d1 d2 : CatRow), x ∈ cats → d1 ∈ cats → d2 ∈ cats →
    d1.parent_id = some c.id → d2.parent_id = some c.id →
    reaches cats f x d1 = true → reaches cats g x d2 = true → d1 = d2 := by
  intro f
  induction f with
  | zero =>
    intro g x d1 d2 hx hd1 hd2 hp1 hp2 h1 h2
    have hxd1 : x = d1 := of_decide_eq_true h1
    subst hxd1
    -- x = d1; show d2 = d1 by the rank argument unless equal
    by_cases heq : x = d2
    · exact heq.symm ▸ rfl
    · exfalso
      cases g with
      | zero => exact heq (of_decide_eq_true h2)
      | succ g =>
        simp only [reaches] at h2
        rcases (Bool.or_eq_true _ _).mp h2 with h2 | h2
        · exact heq (of_decide_eq_true h2)
        · simp only [hp1] at h2
          rcases hfc : findCat cats c.id with _ | px
          · simp only [hfc] at h2; simp at h2
          · simp only [hfc] at h2
            obtain ⟨hpxmem, hpxid⟩ := findCat_mem cats c.id px hfc
            have hle : rank d2.id ≤ rank px.id :=
              reaches_rank cats rank hrk d2 g px hpxmem h2
            have hlt : rank c.id < rank d2.id := hrk d2 hd2 c.id hp2
            rw [hpxid] at hle
            omega
  | succ f ih =>
    intro g x d1 d2 hx hd1 hd2 hp1 hp2 h1 h2
    by_cases hxd1 : x = d1
    · subst hxd1
      by_cases hxd2 : x = d2
      · exact hxd2 ▸ rfl
      · exfalso
        cases g with
        | zero => exact hxd2 (of_decide_eq_true h2)
        | succ g =>
          simp only [reaches] at h2
          rcases (Bool.or_eq_true _ _).mp h2 with h2 | h2
          · exact hxd2 (of_decide_eq_true h2)
          · simp only [hp1] at h2
            rcases hfc : findCat cats c.id with _ | px
            · simp only [hfc] at h2; simp at h2
            · simp only [hfc] at h2
              obtain ⟨hpxmem, hpxid⟩ := findCat_mem cats c.id px hfc
              have hle : rank d2.id ≤ rank px.id :=
                reaches_rank cats rank hrk d2 g px hpxmem h2
              have hlt : rank c.id < rank d2.id := hrk d2 hd2 c.id hp2
              rw [hpxid] at hle
              omega
    · by_cases hxd2 : x = d2
      · subst hxd2
        exfalso
        simp only [reaches] at h1
        rcases (Bool.or_eq_true _ _).mp h1 with h1 | h1
        · exact hxd1 (of_decide_eq_true h1)
        · simp only [hp2] at h1
          rcases hfc : findCat cats c.id with _ | px
          · simp only [hfc] at h1; simp at h1
          · simp only [hfc] at h1
            obtain ⟨hpxmem, hpxid⟩ := findCat_mem cats c.id px hfc
            have hle : rank d1.id ≤ rank px.id :=
              reaches_rank cats rank hrk d1 f px hpxmem h1
            have hlt : rank c.id < rank d1.id := hrk d1 hd1 c.id hp1
            rw [hpxid] at hle
            omega
      · -- both reaches go through the unique parent of x
        simp only [reaches] at h1
        rcases (Bool.or_eq_true _ _).mp h1 with h1 | h1
        · exact absurd (of_decide_eq_true h1) hxd1
        · cases g with
          | zero => exact absurd (of_decide_eq_true h2) hxd2
          | succ g =>
            simp only [reaches] at h2
            rcases (Bool.or_eq_true _ _).mp h2 with h2 | h2
            · exact absurd (of_decide_eq_true h2) hxd2
            · rcases hp : x.parent_id with _ | p
              · simp only [hp] at h1; simp at h1
              · simp only [hp] at h1 h2
                rcases hfc : findCat cats p with _ | px
                · simp only [hfc] at h1; simp at h1
                · simp only [hfc] at h1 h2
                  obtain ⟨hpxmem, _⟩ := findCat_mem cats p px hfc
                  exact ih g px d1 d2 hpxmem hd1 hd2 hp1 hp2 h1 h2


theorem count_flattenForest (x : CatRow) (ts : List CatTree) :
    List.count x (flattenForest ts) = (ts.map (fun t => List.count x (flattenTree t))).sum := by
  induction ts with
  | nil => rfl
  | cons t rest ih =>
    simp only [flattenForest, List.count_append, List.map_cons, List.sum_cons, ih]

theorem sum_map_ite_count {α : Type} (l : List α) (P : α → Bool) :
    (l.map (fun a => if P a = true then 1 else 0)).sum = (l.filter P).length := by
  induction l with
  | nil => rfl
  | cons a rest ih =>
    by_cases h : P a = true
    · simp [h, List.filter_cons, ih]
      omega
    · simp [h, List.filter_cons, ih]

theorem filter_length_one {α : Type} (P : α → Bool) :
    ∀ l : List α, l.Nodup → ∀ d, d ∈ l → P d = true → (∀ a ∈ l, P a = true → a = d) →
    (l.filter P).length = 1 := by
  intro l
  induction l with
  | nil => intro _ d hd; simp at hd
  | cons a rest ih =>
    intro hnd d hd hPd huniq
    have hnotmem : a ∉ rest := (List.nodup_cons.mp hnd).1
    have hndrest : rest.Nodup := (List.nodup_cons.mp hnd).2
    rcases List.mem_cons.mp hd with hda | hdrest
    · subst hda
      have hrest : rest.filter P = [] := by
        rw [List.filter_eq_nil_iff]
        intro b hb hPb
        have := huniq b (by simp [hb]) hPb
        subst this
        exact hnotmem hb
      simp [List.filter_cons, hPd, hrest]
    · have hPa : ¬ P a = true := by
        intro hPa
        have := huniq a (by simp) hPa
        subst this
        exact hnotmem hdrest
      simp only [List.filter_cons, if_neg hPa]
      exact ih hndrest d hdrest hPd (fun b hb hPb => huniq b (by simp [hb]) hPb)

theorem mem_flattenForest (y : CatRow) (ts : List CatTree) :
    y ∈ flattenForest ts ↔ ∃ t ∈ ts, y ∈ flattenTree t := by
  induction ts with
  | nil => simp [flattenForest]
  | cons t rest ih =>
    simp only [flattenForest, List.mem_append, ih]
    constructor
    · rintro (h | ⟨t', ht', hy⟩)
      · exact ⟨t, by simp, h⟩
      · exact ⟨t', by simp [ht'], hy⟩
    · rintro ⟨t', ht', hy⟩
      rcases List.mem_cons.mp ht' with h | h
      · subst h
        exact Or.inl hy
      · exact Or.inr ⟨t', h, hy⟩

theorem subtree_sub (cats : List CatRow) :
    ∀ (f : Nat) (c : CatRow), c ∈ cats →
    ∀ y ∈ flattenTree (buildTree cats f c), y ∈ cats := by
  intro f
  induction f with
  | zero =>
    intro c hc y hy
    simp only [buildTree, flattenTree, flattenForest] at hy
    rcases List.mem_cons.mp hy with h | h
    · exact h ▸ hc
    · simp at h
  | succ f ih =>
    intro c hc y hy
    simp only [buildTree, flattenTree] at hy
    rcases List.mem_cons.mp hy with h | h
    · exact h ▸ hc
    · obtain ⟨t, ht, hyt⟩ := (mem_flattenForest y _).mp h
      obtain ⟨ch, hch, hbt⟩ := List.mem_map.mp ht
      have hchmem : ch ∈ cats := (List.mem_filter.mp hch).1
      exact ih ch hchmem y (hbt ▸ hyt)

theorem buildTree_count (cats : List CatRow) (rank : Nat → Nat)
    (hnd : (cats.map (fun c => c.id)).Nodup)
    (hrk : ∀ c ∈ cats, ∀ p, c.parent_id = some p → rank p < rank c.id)
    (hrb : ∀ c ∈ cats, rank c.id < cats.length)
    (x : CatRow) (hx : x ∈ cats) :
    ∀ (f : Nat) (c : CatRow), c ∈ cats → cats.length - rank c.id ≤ f →
    List.count x (flattenTree (buildTree cats f c)) =
      if reaches cats cats.length x c = true then 1 else 0 := by
  have hcatsnd : cats.Nodup := List.Nodup.of_map _ hnd
  intro f
  induction f with
  | zero =>
    intro c hc hf
    exfalso
    have := hrb c hc
    omega
  | succ f ih =>
    intro c hc hf
    simp only [buildTree, flattenTree]
    rw [List.count_cons, count_flattenForest, List.map_map]
    have hmap : (cats.filter (fun ch => ch.parent_id == some c.id)).map
          ((fun t => List.count x (flattenTree t)) ∘ buildTree cats f) =
        (cats.filter (fun ch => ch.parent_id == some c.id)).map
          (fun ch => if reaches cats cats.length x ch = true then 1 else 0) := by
      refine List.map_congr_left (fun ch hch => ?_)
      obtain ⟨hchmem, hchp⟩ := List.mem_filter.mp hch
      have hpp : ch.parent_id = some c.id := by simpa using hchp
      have hlt : rank c.id < rank ch.id := hrk ch hchmem c.id hpp
      exact ih ch hchmem (by omega)
    rw [hmap, sum_map_ite_count]
    by_cases hxc : x = c
    · subst hxc
      have hempty : (cats.filter (fun ch => ch.parent_id == some x.id)).filter
          (fun ch => reaches cats cats.length x ch) = [] := by
        rw [List.filter_eq_nil_iff]
        intro ch hch hr
        obtain ⟨hchmem, hchp⟩ := List.mem_filter.mp hch
        have hpp : ch.parent_id = some x.id := by simpa using hchp
        have h1 : rank ch.id ≤ rank x.id :=
          reaches_rank cats rank hrk ch cats.length x hx hr
        have h2 : rank x.id < rank ch.id := hrk ch hchmem x.id hpp
        omega
      rw [hempty]
      simp [reaches_self]
    · rw [if_neg (fun h => hxc (eq_of_beq h).symm)]
      by_cases hr : reaches cats cats.length x c = true
      · rw [if_pos hr]
        obtain ⟨d, hd, hdp, hrd⟩ :=
          reaches_child_exists cats rank hrk hrb c cats.length x hx hr hxc
        have hdmem : d ∈ cats.filter (fun ch => ch.parent_id == some c.id) :=
          List.mem_filter.mpr ⟨hd, by simp [hdp]⟩
        have hnodupf : (cats.filter (fun ch => ch.parent_id == some c.id)).Nodup :=
          List.Nodup.filter _ hcatsnd
        rw [filter_length_one _ _ hnodupf d hdmem hrd (fun a ha hPa => ?_)]
        obtain ⟨hamem, hap⟩ := List.mem_filter.mp ha
        have happ : a.parent_id = some c.id := by simpa using hap
        exact reaches_child_unique cats rank hrk c cats.length cats.length x a d hx
          hamem hd happ hdp hPa hrd
      · rw [if_neg hr]
        have hempty : (cats.filter (fun ch => ch.parent_id == some c.id)).filter
            (fun ch => reaches cats cats.length x ch) = [] := by
          rw [List.filter_eq_nil_iff]
          intro ch hch hrch
          obtain ⟨hchmem, hchp⟩ := List.mem_filter.mp hch
          have hpp : ch.parent_id = some c.id := by simpa using hchp
          have hstep : reaches cats 1 ch c = true := by
            refine reaches_step cats 0 ch c c c.id hpp (findCat_self cats hnd c hc) ?_
            exact reaches_self cats 0 c
          have htr : reaches cats (cats.length + 1) x c = true :=
            reaches_trans cats cats.length 1 x ch c hrch hstep
          exact hr (reaches_bound cats rank hrk hrb c _ x hx htr)
        rw [hempty]
        rfl


theorem root_count (cats : List CatRow) (rank : Nat → Nat)
    (hnd : (cats.map (fun c => c.id)).Nodup)
    (hrk : ∀ c ∈ cats, ∀ p, c.parent_id = some p → rank p < rank c.id)
    (hrb : ∀ c ∈ cats, rank c.id < cats.length)
    (hcl : ∀ c ∈ cats, ∀ p, c.parent_id = some p → ∃ pc ∈ cats, pc.id = p) :
    ∀ (k : Nat) (x : CatRow), x ∈ cats → rank x.id = k →
    ((cats.filter (fun c => c.parent_id == none)).filter
      (fun r => reaches cats cats.length x r)).length = 1 := by
  have hcatsnd : cats.Nodup := List.Nodup.of_map _ hnd
  have hrootsnd : (cats.filter (fun c => c.parent_id == none)).Nodup :=
    List.Nodup.filter _ hcatsnd
  intro k
  induction k using Nat.strong_induction_on with
  | _ k ih =>
    intro x hx hkx
    obtain ⟨m, hm⟩ : ∃ m, cats.length = m + 1 := by
      cases hlen : cats.length with
      | zero =>
        rw [List.length_eq_zero] at hlen
        subst hlen
        simp at hx
      | succ m => exact ⟨m, rfl⟩
    rcases hpx : x.parent_id with _ | p
    · have hxroot : x ∈ cats.filter (fun c => c.parent_id == none) :=
        List.mem_filter.mpr ⟨hx, by simp [hpx]⟩
      refine filter_length_one _ _ hrootsnd x hxroot (reaches_self cats _ x) ?_
      intro r hr hreach
      rw [hm] at hreach
      simp only [reaches] at hreach
      rcases (Bool.or_eq_true _ _).mp hreach with h | h
      · exact (of_decide_eq_true h).symm
      · simp only [hpx] at h
        simp at h
    · obtain ⟨pc, hpc, hpcid⟩ := hcl x hx p hpx
      have hfind : findCat cats p = some pc := by
        rw [← hpcid]
        exact findCat_self cats hnd pc hpc
      have hlt : rank pc.id < k := by
        rw [hpcid, ← hkx]
        exact hrk x hx p hpx
      have hrec := ih (rank pc.id) hlt pc hpc rfl
      rw [← hrec]
      congr 1
      refine List.filter_congr (fun r hr => ?_)
      have hxner : x ≠ r := by
        intro he
        have hrroot : r.parent_id = none := by
          have := (List.mem_filter.mp hr).2
          simpa using this
        rw [he, hrroot] at hpx
        cases hpx
      have dir1 : reaches cats cats.length x r = true →
          reaches cats cats.length pc r = true := by
        intro h
        rw [hm] at h
        simp only [reaches] at h
        rcases (Bool.or_eq_true _ _).mp h with h | h
        · exact absurd (of_decide_eq_true h) hxner
        · simp only [hpx, hfind] at h
          exact reaches_mono cats m cats.length pc r (by omega) h
      have dir2 : reaches cats cats.length pc r = true →
          reaches cats cats.length x r = true := by
        intro h
        have hstep := reaches_step cats cats.length x pc r p hpx hfind h
        exact reaches_bound cats rank hrk hrb r _ x hx hstep
      by_cases h1 : reaches cats cats.length x r = true
      · rw [h1, dir1 h1]
      · by_cases h2 : reaches cats cats.length pc r = true
        · exact absurd (dir2 h2) h1
        · rw [Bool.not_eq_true] at h1 h2
          rw [h1, h2]


/-- The forest built by `get_category_hierarchy` contains every stored
category exactly once (as a permutation), for id-unique, parent-closed,
acyclic category sets. -/
theorem forest_perm (cats : List CatRow) (rank : Nat → Nat)
    (hnd : (cats.map (fun c => c.id)).Nodup)
    (hrk : ∀ c ∈ cats, ∀ p, c.parent_id = some p → rank p < rank c.id)
    (hrb : ∀ c ∈ cats, rank c.id < cats.length)
    (hcl : ∀ c ∈ cats, ∀ p, c.parent_id = some p → ∃ pc ∈ cats, pc.id = p) :
    List.Perm
      (flattenForest ((cats.filter (fun c => c.parent_id == none)).map
        (buildTree cats cats.length)))
      cats := by
  have hcatsnd : cats.Nodup := List.Nodup.of_map _ hnd
  rw [List.perm_iff_count]
  intro x
  by_cases hx : x ∈ cats
  · rw [count_flattenForest, List.map_map]
    have hcongr : (cats.filter (fun c => c.parent_id == none)).map
          ((fun t => List.count x (flattenTree t)) ∘ buildTree cats cats.length) =
        (cats.filter (fun c => c.parent_id == none)).map
          (fun r => if reaches cats cats.length x r = true then 1 else 0) := by
      refine List.map_congr_left (fun r hr => ?_)
      have hrmem : r ∈ cats := (List.mem_filter.mp hr).1
      exact buildTree_count cats rank hnd hrk hrb x hx cats.length r hrmem (by omega)
    rw [hcongr, sum_map_ite_count]
    rw [root_count cats rank hnd hrk hrb hcl (rank x.id) x hx rfl]
    exact (List.count_eq_one_of_mem hcatsnd hx).symm
  · rw [List.count_eq_zero.mpr hx, List.count_eq_zero]
    intro hmem
    obtain ⟨t, ht, hyt⟩ := (mem_flattenForest x _).mp hmem
    obtain ⟨r, hrmem, hbt⟩ := List.mem_map.mp ht
    exact hx (subtree_sub cats cats.length r (List.mem_filter.mp hrmem).1 x (hbt ▸ hyt))

theorem buildTree_cat (cats : List CatRow) (f : Nat) (c : CatRow) :
    (buildTree cats f c).cat = c := by
  cases f <;> rfl

mutual

/-- Every child in the tree carries the parent's id in its `parent_id`. -/
def ChildrenLinked : CatTree → Prop
  | .node c ts => (∀ t ∈ ts, (CatTree.cat t).parent_id = some c.id) ∧ ChildrenLinkedAll ts

def ChildrenLinkedAll : List CatTree → Prop
  | [] => True
  | t :: ts => ChildrenLinked t ∧ ChildrenLinkedAll ts

end

theorem linkedAll_of_forall (l : List CatTree) (h : ∀ t ∈ l, ChildrenLinked t) :
    ChildrenLinkedAll l := by
  induction l with
  | nil => trivial
  | cons t ts ih =>
    exact ⟨h t (by simp), ih (fun u hu => h u (by simp [hu]))⟩

theorem buildTree_linked (cats : List CatRow) :
    ∀ (f : Nat) (c : CatRow), ChildrenLinked (buildTree cats f c) := by
  intro f
  induction f with
  | zero =>
    intro c
    exact ⟨by simp, trivial⟩
  | succ f ih =>
    intro c
    refine ⟨?_, ?_⟩
    · intro t ht
      obtain ⟨ch, hch, hbt⟩ := List.mem_map.mp ht
      rw [← hbt, buildTree_cat]
      have := (List.mem_filter.mp hch).2
      simpa using this
    · refine linkedAll_of_forall _ (fun t ht => ?_)
      obtain ⟨ch, _, hbt⟩ := List.mem_map.mp ht
      exact hbt ▸ ih ch

/-! ### C8 hypotheses on the stored category set -/

def NodupIds (cats : List CatRow) : Prop := (cats.map (fun c => c.id)).Nodup

instance (cats : List CatRow) : Decidable (NodupIds cats) := by
  unfold NodupIds
  infer_instance

def ParentClosed (cats : List CatRow) : Prop :=
  ∀ c ∈ cats, ∀ p, c.parent_id = some p → ∃ pc ∈ cats, pc.id = p

/-- Acyclicity of the parent links, expressed by a ranking function that
drops along every parent edge; any finite acyclic forest admits one with
values below the number of categories (a topological numbering). -/
def AcyclicCats (cats : List CatRow) : Prop :=
  ∃ rank : Nat → Nat, (∀ c ∈ cats, ∀ p, c.parent_id = some p → rank p < rank c.id) ∧
    (∀ c ∈ cats, rank c.id < cats.length)

/-- C8: for a store whose categories have unique ids, acyclic parent
links and no dangling parent references, `get_category_hierarchy` returns
a forest containing every stored category exactly once (a permutation of
the stored set), whose roots are exactly the `parent_id = null`
categories in stored order of the sorted list, and in which every child
node names its parent. -/
theorem claim_C8_category_forest (db : DB)
    (hnd : NodupIds db.categories) (hcl : ParentClosed db.categories)
    (hac : AcyclicCats db.categories) :
    List.Perm (flattenForest (get_category_hierarchy db)) db.categories ∧
    (get_category_hierarchy db).map CatTree.cat =
      (get_all_categories db).filter (fun c => c.parent_id == none) ∧
    (∀ t ∈ get_category_hierarchy db, (CatTree.cat t).parent_id = none) ∧
    ChildrenLinkedAll (get_category_hierarchy db) := by
  obtain ⟨rank, hrk0, hrb0⟩ := hac
  have hperm : List.Perm (get_all_categories db) db.categories :=
    sortBy_perm _ db.categories
  have hnd' : ((get_all_categories db).map (fun c => c.id)).Nodup :=
    (List.Perm.nodup_iff (hperm.map _)).mpr hnd
  have hrk : ∀ c ∈ get_all_categories db, ∀ p, c.parent_id = some p →
      rank p < rank c.id :=
    fun c hc => hrk0 c (hperm.mem_iff.mp hc)
  have hrb : ∀ c ∈ get_all_categories db, rank c.id < (get_all_categories db).length := by
    intro c hc
    rw [hperm.length_eq]
    exact hrb0 c (hperm.mem_iff.mp hc)
  have hcl' : ∀ c ∈ get_all_categories db, ∀ p, c.parent_id = some p →
      ∃ pc ∈ get_all_categories db, pc.id = p := by
    intro c hc p hp
    obtain ⟨pc, hpc, hid⟩ := hcl c (hperm.mem_iff.mp hc) p hp
    exact ⟨pc, hperm.mem_iff.mpr hpc, hid⟩
  refine ⟨?_, ?_, ?_, ?_⟩
  · exact (forest_perm (get_all_categories db) rank hnd' hrk hrb hcl').trans hperm
  · rw [get_category_hierarchy]
    rw [List.map_map]
    exact map_self_of _ _ (fun r _ => buildTree_cat _ _ r)
  · intro t ht
    obtain ⟨r, hr, hbt⟩ := List.mem_map.mp ht
    rw [← hbt, buildTree_cat]
    have := (List.mem_filter.mp hr).2
    simpa using this
  · refine linkedAll_of_forall _ (fun t ht => ?_)
    obtain ⟨r, _, hbt⟩ := List.mem_map.mp ht
    exact hbt ▸ buildTree_linked _ _ r

/-- Witness store for C8: the default category with one subcategory. -/
def dbC8 : DB :=
  { master := none
    categories := [{ id := 1, name := "A".data, description := none, parent_id := none,
                     icon := none, created_at := 0, updated_at := 0 },
                   { id := 2, name := "B".data, description := none, parent_id := some 1,
                     icon := none, created_at := 0, updated_at := 0 }]
    passwords := [], settings := none, nextCatId := 3, nextPwId := 1 }

theorem claim_C8_category_forest_witness :
    List.Perm (flattenForest (get_category_hierarchy dbC8)) dbC8.categories := by
  refine (claim_C8_category_forest dbC8 (by decide) ?_ ?_).1
  · intro c hc p hp
    rcases List.mem_cons.mp hc with hc | hc
    · subst hc
      cases hp
    · rcases List.mem_cons.mp hc with hc | hc
      · subst hc
        refine ⟨{ id := 1, name := "A".data, description := none, parent_id := none,
                  icon := none, created_at := 0, updated_at := 0 }, by simp [dbC8], ?_⟩
        cases hp
        rfl
      · simp at hc
  · refine ⟨fun i => i - 1, ?_, by decide⟩
    intro c hc p hp
    rcases List.mem_cons.mp hc with hc | hc
    · subst hc
      cases hp
    · rcases List.mem_cons.mp hc with hc | hc
      · subst hc
        cases hp
        decide
      · simp at hc


/-- A category set with acyclic links and unique ids in which category 2
names a non-existent parent (id 77) — a state reachable through the
unvalidated inserts (see C5). -/
def dbC8bad : DB :=
  { master := none
    categories := [{ id := 1, name := "A".data, description := none, parent_id := none,
                     icon := none, created_at := 0, updated_at := 0 },
                   { id := 2, name := "B".data, description := none, parent_id := some 77,
                     icon := none, created_at := 0, updated_at := 0 }]
    passwords := [], settings := none, nextCatId := 3, nextPwId := 1 }

def catB : CatRow :=
  { id := 2, name := "B".data, description := none, parent_id := some 77, icon := none,
    created_at := 0, updated_at := 0 }

/-- C8 counterexample: the links of `dbC8bad` are acyclic and its ids
unique, yet the forest returned by `get_category_hierarchy` omits
category 2 entirely — it is neither a root (its `parent_id` is non-null)
nor a child of any existing node (no category has id 77).  The claim
promises every stored category appears exactly once under acyclicity
alone. -/
theorem claim_C8_counterexample :
    AcyclicCats dbC8bad.categories ∧ NodupIds dbC8bad.categories ∧
    catB ∈ dbC8bad.categories ∧
    catB ∉ flattenForest (get_category_hierarchy dbC8bad) := by
  refine ⟨⟨fun i => if i = 2 then 1 else 0, ?_, by decide⟩, by decide, by decide, by decide⟩
  intro c hc p hp
  rcases List.mem_cons.mp hc with hc | hc
  · subst hc
    cases hp
  · rcases List.mem_cons.mp hc with hc | hc
    · subst hc
      cases hp
      decide
    · simp at hc

end PM
